import Mathlib

/-!
# Verification of `linked-release-notes` (main.go)

A shallow embedding, in Lean 4, of the core logic of the
`linked-release-notes` GitHub action, together with proofs of the spec's
claims about it.

Go strings are modelled as Lean `String` at the API boundary and as
`List Char` internally (the repository only handles ASCII tag names, commit
messages and URLs, where Go's byte-wise string order coincides with the
code-point order used here; for valid UTF-8, byte-wise lexicographic order
equals code-point lexicographic order, so the model agrees with Go on all
valid UTF-8 strings).  Remote calls (GitHub API) are modelled as explicit
inputs: a fallible call becomes an `Except` value supplied by the
environment.  A Go slice-out-of-range panic is modelled as a distinguished
`Outcome.panicked` value.
-/

namespace LinkedReleaseNotes

/-! ## Generic Go string helpers, on `List Char` -/

/-- Byte-wise string comparison (the order behind Go's `x < y` on strings),
expressed on code points; returns `-1`, `0` or `1`. -/
def goStrCmp : List Char → List Char → Int
  | [], [] => 0
  | [], _ :: _ => -1
  | _ :: _, [] => 1
  | a :: xs, b :: ys => if a < b then -1 else if b < a then 1 else goStrCmp xs ys

/-- Go `strings.HasPrefix p` (here with the candidate prefix first). -/
def hasPre (p s : List Char) : Bool := s.take p.length == p

/-- Go `strings.HasSuffix`. -/
def hasSuf (p s : List Char) : Bool :=
  decide (p.length ≤ s.length) && (s.drop (s.length - p.length) == p)

/-- The whitespace set of Go's `unicode.IsSpace` (used by `strings.TrimSpace`). -/
def isSpaceGo (c : Char) : Bool :=
  c = ' ' || c = '\t' || c = '\n' || c = '\x0B' || c = '\x0C' || c = '\r' ||
  c = '\u0085' || c = '\u00A0' || c = '\u1680' ||
  ('\u2000' ≤ c && c ≤ '\u200A') ||
  c = '\u2028' || c = '\u2029' || c = '\u202F' || c = '\u205F' || c = '\u3000'

/-- Go `strings.TrimSpace`: drop leading and trailing whitespace. -/
def trimSp (s : List Char) : List Char :=
  ((s.dropWhile isSpaceGo).reverse.dropWhile isSpaceGo).reverse

/-- Go `strings.Split` with a one-character separator: the list of segments
between occurrences of `sep` (never empty; `n` separators give `n+1`
segments).  Defined as a right fold; `splitCh_eq_scan` below shows it equals
the left-to-right "take segment up to the separator, repeat" scan that the
Go standard library (and the `nextIdent` loop of `golang.org/x/mod/semver`)
performs. -/
def splitCh (sep : Char) : List Char → List (List Char)
  | [] => [[]]
  | c :: rest =>
    if c = sep then [] :: splitCh sep rest
    else
      match splitCh sep rest with
      | [] => [[c]]
      | d :: ds => (c :: d) :: ds

/-- Inverse of `splitCh`: interleave the separator back. -/
def joinSep (sep : Char) : List (List Char) → List Char
  | [] => []
  | [d] => d
  | d :: ds => d ++ sep :: joinSep sep ds

/-- Go `strings.Join(xs, "\n")` on strings. -/
def joinNL (xs : List String) : String :=
  match xs with
  | [] => ""
  | x :: rest => rest.foldl (fun acc y => acc ++ "\n" ++ y) x

/-- Go `strings.Contains(s, string(c))` for a one-character needle. -/
def strContains (s : String) (c : Char) : Bool := s.data.contains c

/-! ## Embedding of `golang.org/x/mod/semver`

Faithful translation of the `semver` package functions used by
`fetchPreviousTag`: `Compare`, the `parse`/`parseInt`/`parsePrerelease`/
`parseBuild` helpers, and the `ByVersion` order behind `semver.Sort`.
Identifier scanning (`nextIdent`, which repeatedly takes the segment up to
the next `.`) is expressed by splitting on `.` with `splitCh`, which
performs the same segmentation (`splitCh_eq_scan`). -/

/-- `isIdentChar` of the semver package. -/
def isIdentChar (c : Char) : Bool :=
  ('A' ≤ c && c ≤ 'Z') || ('a' ≤ c && c ≤ 'z') || ('0' ≤ c && c ≤ '9') || c = '-'

/-- ASCII digit test (`'0' <= c && c <= '9'` in the Go source). -/
def isDigitGo (c : Char) : Bool := '0' ≤ c && c ≤ '9'

/-- `isNum` of the semver package: every character is a digit
(vacuously true of the empty string, as in Go). -/
def isNum (v : List Char) : Bool := v.all isDigitGo

/-- `isBadNum` of the semver package: an all-digit string with a leading
zero and more than one character. -/
def isBadNum (v : List Char) : Bool :=
  v.all isDigitGo && decide (1 < v.length) && (v.head? == some '0')

/-- `parseInt` of the semver package: take a leading run of digits with no
leading zero; return the run and the rest, or fail. -/
def parseInt (v : List Char) : Option (List Char × List Char) :=
  match v with
  | [] => none
  | c :: _ =>
    if isDigitGo c then
      let t := v.takeWhile isDigitGo
      if c = '0' && t.length ≠ 1 then none
      else some (t, v.drop t.length)
    else none

/-- `parsePrerelease` of the semver package: after a leading `-`, the
segment up to the first `+` must consist of `.`-separated identifiers, each
nonempty, of identifier characters, and not a leading-zero numeral.
Returns (`-` plus the scanned body, unscanned rest). -/
def parsePre (v : List Char) : Option (List Char × List Char) :=
  match v with
  | '-' :: w =>
    let body := w.takeWhile (· ≠ '+')
    if body.all (fun c => isIdentChar c || c = '.') &&
       (splitCh '.' body).all (fun s => !s.isEmpty && !isBadNum s) then
      some ('-' :: body, w.dropWhile (· ≠ '+'))
    else none
  | _ => none

/-- `parseBuild` of the semver package: after a leading `+`, the rest of
the string must consist of `.`-separated nonempty identifier segments
(leading-zero numerals are allowed here). -/
def parseBuild (v : List Char) : Option (List Char × List Char) :=
  match v with
  | '+' :: w =>
    if w.all (fun c => isIdentChar c || c = '.') &&
       (splitCh '.' w).all (fun s => !s.isEmpty) then
      some ('+' :: w, [])
    else none
  | _ => none

/-- The `parsed` struct of the semver package (the `short` field, unused by
`Compare`, is omitted). -/
structure Parsed where
  major : List Char
  minor : List Char
  patch : List Char
  prerelease : List Char
  build : List Char
deriving Repr, DecidableEq

/-- `parse` of the semver package: `v`, then major[.minor[.patch]] with
omitted components defaulting to `0`, then optional prerelease and build
parts, and nothing may remain. -/
def parseSemver (v : List Char) : Option Parsed :=
  match v with
  | 'v' :: w =>
    match parseInt w with
    | none => none
    | some (maj, r1) =>
      match r1 with
      | [] => some ⟨maj, ['0'], ['0'], [], []⟩
      | '.' :: r2 =>
        match parseInt r2 with
        | none => none
        | some (min, r3) =>
          match r3 with
          | [] => some ⟨maj, min, ['0'], [], []⟩
          | '.' :: r4 =>
            match parseInt r4 with
            | none => none
            | some (pat, r5) =>
              let pre? : Option (List Char × List Char) :=
                match r5 with
                | '-' :: _ => parsePre r5
                | _ => some ([], r5)
              match pre? with
              | none => none
              | some (pre, r6) =>
                let bld? : Option (List Char × List Char) :=
                  match r6 with
                  | '+' :: _ => parseBuild r6
                  | _ => some ([], r6)
                match bld? with
                | none => none
                | some (bld, r7) =>
                  if r7 = [] then some ⟨maj, min, pat, pre, bld⟩ else none
          | _ => none
      | _ => none
  | _ => none

/-- `compareInt` of the semver package: equal strings are equal; otherwise
shorter is smaller, and equal lengths fall back to byte order.  (On the
no-leading-zero numerals produced by `parseInt` this is numeric order.) -/
def compareInt (x y : List Char) : Int :=
  if x = y then 0
  else if x.length < y.length then -1
  else if y.length < x.length then 1
  else if goStrCmp x y < 0 then -1 else 1

/-- The in-loop identifier comparison of `comparePrerelease`: numeric
identifiers sort before alphanumeric ones; numeric against numeric is
shorter-first then byte order; otherwise byte order.  Only reached for
`dx ≠ dy`. -/
def cmpIdent (dx dy : List Char) : Int :=
  if (isNum dx) ≠ (isNum dy) then (if isNum dx then -1 else 1)
  else if isNum dx && decide (dx.length < dy.length) then -1
  else if isNum dx && decide (dy.length < dx.length) then 1
  else if goStrCmp dx dy < 0 then -1 else 1

/-- The loop of `comparePrerelease`, on the identifier sequences obtained
by the `nextIdent` scan: compare identifiers pairwise, and when one side
runs out, the side that ran out first is smaller (the Go loop returns `-1`
when `x` is exhausted, also in the unreachable case where both are). -/
def cprIdents : List (List Char) → List (List Char) → Int
  | [], _ => -1
  | _ :: _, [] => 1
  | dx :: xs, dy :: ys => if dx ≠ dy then cmpIdent dx dy else cprIdents xs ys

/-- `comparePrerelease` of the semver package.  An absent prerelease (empty
string) compares greater than any present one; otherwise compare the
`.`-separated identifier sequences after the leading `-`. -/
def comparePre (x y : List Char) : Int :=
  if x = y then 0
  else if x = [] then 1
  else if y = [] then -1
  else cprIdents (splitCh '.' x.tail) (splitCh '.' y.tail)

/-- The cascade `if c != 0 { return c }` of `Compare`. -/
def chainC (k₁ k₂ : Int) : Int := if k₁ ≠ 0 then k₁ else k₂

/-- `Compare` on two successfully parsed versions: major, minor, patch,
then prerelease; build metadata is ignored. -/
def parsedCmp (pv pw : Parsed) : Int :=
  chainC (compareInt pv.major pw.major)
    (chainC (compareInt pv.minor pw.minor)
      (chainC (compareInt pv.patch pw.patch)
        (comparePre pv.prerelease pw.prerelease)))

/-- `semver.Compare`: an invalid version compares less than a valid one and
equal to any other invalid one. -/
def semverCompare (v w : String) : Int :=
  match parseSemver v.data, parseSemver w.data with
  | none, none => 0
  | none, some _ => -1
  | some _, none => 1
  | some pv, some pw => parsedCmp pv pw

/-- `ByVersion.Less` of the semver package: semver order, ties broken by
plain string order. -/
def bvLess (a b : String) : Prop :=
  semverCompare a b < 0 ∨ (semverCompare a b = 0 ∧ goStrCmp a.data b.data < 0)

instance : DecidableRel bvLess := fun _ _ => by unfold bvLess; infer_instance

/-- The non-strict order that `sort.Sort(ByVersion(list))` guarantees of
its output: consecutive elements satisfy `¬ Less b a`. -/
def bvLE (a b : String) : Prop := ¬ bvLess b a

instance : DecidableRel bvLE := fun _ _ => by unfold bvLE; infer_instance

/-- Model of `semver.Sort`.  `sort.Sort` guarantees a permutation of the
input ordered by `¬ Less b a`; `bvLE` is total, transitive and antisymmetric
(proved below), so that permutation is unique and any correct sort computes
it — here realised by insertion sort. -/
def semverSortGo (l : List String) : List String := l.insertionSort bvLE

/-! ## Model of `main.go` -/

/-- The `Config` struct of `main.go`. -/
structure Config where
  Token : String
  Repository : String
  Tag : String
  PreviousTag : String
  GeneratedSubmoduleLink : String
deriving Repr, DecidableEq

/-- The tag-collection loop of `fetchPreviousTag`: every release whose
`TagName` is non-nil (`Option.some`) and nonempty is kept, unless the name
contains a hyphen (prerelease marker).  Pagination is flattened into one
list (a collaborator concern per the spec). -/
def collectTags (releaseTagNames : List (Option String)) : List String :=
  (releaseTagNames.filterMap id).filter
    (fun tn => tn ≠ "" && !(strContains tn '-'))

/-- The downward scan of `fetchPreviousTag`, on the reversed sorted tag
list: walk down while `semver.Compare(target, tags[i]) <= 0`; if the index
underflows, fall back to the greatest tag. -/
def scanDown (target fallback : String) : List String → String
  | [] => fallback
  | t :: rest => if semverCompare target t ≤ 0 then scanDown target fallback rest else t

/-- `fetchPreviousTag` of `main.go`, as a pure function of the
configuration and the listed release tag names; returns the `previousTag`
field it assigns (`""` when it returns with no assignment, the Go zero
value). -/
def fetchPreviousTag (cfgPreviousTag cfgTag : String)
    (releaseTagNames : List (Option String)) : String :=
  if cfgPreviousTag ≠ "" then cfgPreviousTag
  else
    let tags := semverSortGo (collectTags releaseTagNames)
    match tags.getLast? with
    | none => ""
    | some lastTag =>
      if cfgTag = "" then lastTag
      else scanDown cfgTag lastTag tags.reverse

/-- The body of `getChanges`: one `"* " + firstLine` entry per comparison
commit that has a message; a commit with a nil `Commit` or nil `Message`
(modelled as `Option.none`) is skipped.  `strings.Split(msg, "\n")[0]`
always exists because a split is never empty. -/
def getChanges (comparisonCommits : List (Option String)) : List String :=
  comparisonCommits.foldl
    (fun changes msg? =>
      match msg? with
      | some msg =>
        changes ++ ["* " ++ (match splitCh '\n' msg.data with
                             | [] => ""
                             | l :: _ => String.mk l)]
      | none => changes)
    []

/-- Strip a trailing `.git` suffix if present (the `strings.TrimSuffix`
step of the `url = ` branch). -/
def stripDotGit (url0 : List Char) : List Char :=
  if hasSuf ".git".data url0 then url0.take (url0.length - 4) else url0

/-- The `url = ` branch of the `.gitmodules` scanning loop, after the
`TrimPrefix`/`TrimSpace`/`TrimSuffix` steps: branch on the URL form.  For
an HTTP(S) URL take the last two `/`-delimited segments as `owner/name`
(when at least two exist); for a `git@` URL take the segment after the
`:`; otherwise leave the current value. -/
def gitmodulesRepoOfUrl (r : String) (url : List Char) : String :=
  if hasPre "http".data url then
    (if 2 ≤ (splitCh '/' url).length then
       String.mk ((splitCh '/' url).getD ((splitCh '/' url).length - 2) [] ++
         '/' :: (splitCh '/' url).getD ((splitCh '/' url).length - 1) [])
     else r)
  else if hasPre "git@".data url then
    (if 2 ≤ (splitCh ':' url).length then String.mk ((splitCh ':' url).getD 1 []) else r)
  else r

/-- The `url = ` check of the scanning loop on a trimmed line. -/
def gitmodulesUrlUpd (r : String) (line : List Char) : String :=
  if hasPre "url = ".data line then
    gitmodulesRepoOfUrl r (stripDotGit (trimSp (line.drop 6)))
  else r

/-- The `path = ` check of the scanning loop on a trimmed line. -/
def gitmodulesPathUpd (p : String) (line : List Char) : String :=
  if hasPre "path = ".data line then String.mk (line.drop 7) else p

/-- The per-line state update of the `.gitmodules` scanning loop in
`getSubmodulePathRepo`.  State is the (`submodulePath`, `submoduleRepo`)
pair; both `path = ` and `url = ` matches are checked on the trimmed
line, and last seen wins. -/
def gitmodulesLineStep (st : String × String) (rawLine : String) : String × String :=
  (gitmodulesPathUpd st.1 (trimSp rawLine.data),
   gitmodulesUrlUpd st.2 (trimSp rawLine.data))

/-- The parsing part of `getSubmodulePathRepo`: split the manifest content
on newlines and run the line scan. -/
def gitmodulesScan (content : String) : String × String :=
  ((splitCh '\n' content.data).map String.mk).foldl gitmodulesLineStep ("", "")

/-- `getSubmodulePathRepo` of `main.go`, as a function of the result of the
`GetContents` call for `.gitmodules` at the requested commit: a fetch (or
decode) failure is wrapped and returned as an error; otherwise the content
is scanned. -/
def getSubmodulePathRepo (gitmodulesFetch : Except String String) :
    Except String (String × String) :=
  match gitmodulesFetch with
  | .error e => .error ("failed to read .gitmodules from repository: " ++ e)
  | .ok content => .ok (gitmodulesScan content)

/-- One GitHub tree entry, as used by `getSubmoduleCommits`:
(path, type, sha). -/
structure TreeEntry where
  path : String
  type : String
  sha : String
deriving Repr, DecidableEq

/-- The per-tree lookup loop of `getSubmoduleCommits`: the SHA of the first
entry whose path is the submodule path and whose type is `"commit"` (a
gitlink), or `""` if none. -/
def findGitlink (entries : List TreeEntry) (submodulePath : String) : String :=
  match entries.find? (fun e => e.path = submodulePath && e.type = "commit") with
  | some e => e.sha
  | none => ""

/-- `getSubmoduleCommits` of `main.go`, as a function of the two
`GetTree` call results: tree-fetch failures are wrapped; if either lookup
comes up empty the submodule is missing from one of the tags and an error
is returned; otherwise the two pinned SHAs. -/
def getSubmoduleCommits (oldTree newTree : Except String (List TreeEntry))
    (submodulePath : String) : Except String (String × String) :=
  match oldTree with
  | .error e => .error ("failed to get old tree: " ++ e)
  | .ok oldEntries =>
    match newTree with
    | .error e => .error ("failed to get new tree: " ++ e)
    | .ok newEntries =>
      if findGitlink oldEntries submodulePath = "" ∨ findGitlink newEntries submodulePath = ""
      then .error "submodule not found in one or both tags"
      else .ok (findGitlink oldEntries submodulePath, findGitlink newEntries submodulePath)

/-! ### The cross-reference rewriter (`replaceSubmoduleLinks`)

`replaceSubmoduleLinks` applies `regexp.MustCompile("#\\d+($|\\W)")
.ReplaceAllStringFunc(entry, fun s => label + s)` to every entry.  The
replacement prefixes the label and keeps the matched text, so the rewrite
inserts the label before every match of the pattern, where matches are
found leftmost-first and non-overlapping, `\d+` takes the maximal digit
run, and the terminating `$`-or-non-word-character is part of the match
(so a consumed terminator cannot start the next match).

The embedding makes two passes over the character list:
* `annotRefs` (right fold) annotates every character with whether a match
  of the pattern begins right after it — `#` then one or more digits then
  end-of-string or a non-word character;
* `emitRefs` (left scan) inserts the label at each match start and walks
  through the matched digits and the consumed terminator character without
  reconsidering them as match starts, exactly as the regexp engine resumes
  scanning after the end of a match. -/

/-- Perl `\w` as implemented by Go's regexp: `[0-9A-Za-z_]`. -/
def isWordChar (c : Char) : Bool :=
  ('0' ≤ c && c ≤ '9') || ('A' ≤ c && c ≤ 'Z') || ('a' ≤ c && c ≤ 'z') || c = '_'

/-- First component: for each character, whether `#` followed by that
position would match (i.e. the remaining text begins with one or more
digits followed by end-of-string or a non-word character).  Second
component: whether the whole list is a (possibly empty) digit run followed
by end-of-string or a non-word character. -/
def annotRefs : List Char → List (Char × Bool) × Bool
  | [] => ([], true)
  | c :: t =>
    let (at', pt) := annotRefs t
    let mb := match t with
              | [] => false
              | d :: _ => d.isDigit && pt
    ((c, mb) :: at', if c.isDigit then pt else !isWordChar c)

/-- Second pass: outside a match, a `#` whose annotation says a reference
follows gets the label inserted and enters the match; inside a match,
digits pass through and the first non-digit is the consumed terminator. -/
def emitRefs (label : List Char) : Bool → List (Char × Bool) → List Char
  | _, [] => []
  | true, (c, _) :: rest =>
    if c.isDigit then c :: emitRefs label true rest
    else c :: emitRefs label false rest
  | false, (c, mb) :: rest =>
    if c = '#' && mb then label ++ '#' :: emitRefs label true rest
    else c :: emitRefs label false rest

/-- The rewrite of one entry. -/
def rewriteEntry (label : String) (s : String) : String :=
  String.mk (emitRefs label.data false (annotRefs s.data).1)

/-- `replaceSubmoduleLinks` of `main.go`: the in-place rewrite of the whole
entry list, modelled as `map`. -/
def replaceSubmoduleLinks (generatedSubmoduleLink : String)
    (entries : List String) : List String :=
  entries.map (rewriteEntry generatedSubmoduleLink)

/-! ### The run pipeline -/

/-- The remote answers a run consumes, treated as opaque inputs. -/
structure World where
  releaseTagNames : List (Option String)
  tagRef : String → Except String String
  compareMain : List (Option String)
  gitmodules : Except String String
  oldTree : Except String (List TreeEntry)
  newTree : Except String (List TreeEntry)
  compareSub : List (Option String)

/-- Result of `getChangesForSubmodule`: an error, a Go runtime panic
(from the `oldSMCommit[:8]` / `newSMCommit[:8]` display slices when a
resolved identifier is shorter than 8 bytes), or the (possibly updated)
`GeneratedSubmoduleLink`, the submodule repository name and its changes. -/
inductive SubResult where
  | err (msg : String)
  | panicked
  | ok (link : String) (smRepoName : String) (smChanges : List String)
deriving Repr, DecidableEq

/-- `getChangesForSubmodule` of `main.go`.  Note the early naked `return`
when the manifest declares no usable submodule: it returns the
`submoduleRepoName` named return value as already assigned (possibly
nonempty) with nil changes and nil error. -/
def getChangesForSubmodule (cfgLink : String) (w : World) : SubResult :=
  match getSubmodulePathRepo w.gitmodules with
  | .error e => .err ("failed to get submodule path and repository: " ++ e)
  | .ok (submodulePath, submoduleRepoName) =>
    if submodulePath = "" ∨ submoduleRepoName = "" then .ok cfgLink submoduleRepoName []
    else
      match getSubmoduleCommits w.oldTree w.newTree submodulePath with
      | .error e => .err ("failed to get submodule commits: " ++ e)
      | .ok (oldSM, newSM) =>
        if oldSM.data.length < 8 ∨ newSM.data.length < 8 then .panicked
        else if (splitCh '/' submoduleRepoName.data).length ≠ 2 then
          .err ("invalid submodule repository format: " ++ submoduleRepoName
                ++ " (expected owner/repo)")
        else
          .ok (if cfgLink = "" then submoduleRepoName else cfgLink)
            submoduleRepoName (getChanges w.compareSub)

/-- Result of a whole run: the assembled release notes, a propagated error
(process exits non-zero), or a runtime panic. -/
inductive Outcome where
  | ok (notes : String)
  | err (msg : String)
  | panicked
deriving Repr, DecidableEq

/-- `run` of `main.go`: parse the repository identity, resolve the previous
tag, resolve both commits, fetch host changes, fetch and rewrite submodule
changes, and assemble the two-section report. -/
def run (cfg : Config) (w : World) : Outcome :=
  match splitCh '/' cfg.Repository.data with
  | [ownerL, repoL] =>
    match w.tagRef cfg.Tag with
    | .error e => .err ("failed to get commit for tag: failed to get tag reference: " ++ e)
    | .ok _commit =>
      match w.tagRef (fetchPreviousTag cfg.PreviousTag cfg.Tag w.releaseTagNames) with
      | .error e =>
        .err ("failed to get commit for previous tag: failed to get tag reference: " ++ e)
      | .ok _prevCommit =>
        match getChangesForSubmodule cfg.GeneratedSubmoduleLink w with
        | .err m => .err m
        | .panicked => .panicked
        | .ok link smRepoName smChanges =>
          .ok ("## Changes from " ++ String.mk ownerL ++ "/" ++ String.mk repoL ++ ":\n"
               ++ joinNL (getChanges w.compareMain) ++ "\n"
               ++ "\n## Changes from " ++ smRepoName ++ ":\n"
               ++ joinNL (replaceSubmoduleLinks link smChanges) ++ "\n")
  | _ => .err ("invalid repository format: " ++ cfg.Repository ++ " (expected owner/repo)")

/-! ### Spec-side definition for the cross-reference rewriter (claim C3)

`Rew label s t` is the specification relation, written from the spec's
words: `t` is `s` with the label inserted before every bare issue/PR
reference — `#` followed by one or more digits followed by end-of-string
or a non-word character — scanning left to right and consuming each match
(including its terminating non-word character, when present) so matches
never overlap, and preserving all other text byte for byte. -/

/-- The text `u` begins with a bare reference: `#`, one or more digits,
then end-of-string or a non-word character. -/
def MatchAt (u : List Char) : Prop :=
  ∃ ds rest, u = '#' :: ds ++ rest ∧ ds ≠ [] ∧ (∀ d ∈ ds, d.isDigit) ∧
    (rest = [] ∨ ∃ c rest', rest = c :: rest' ∧ isWordChar c = false)

/-- Left-to-right, non-overlapping rewrite of every bare reference. -/
inductive Rew (L : List Char) : List Char → List Char → Prop
  | nil : Rew L [] []
  | plain {c s t} : ¬ MatchAt (c :: s) → Rew L s t → Rew L (c :: s) (c :: t)
  | refEnd {ds} : ds ≠ [] → (∀ d ∈ ds, d.isDigit) →
      Rew L ('#' :: ds) (L ++ '#' :: ds)
  | refMid {ds c s t} : ds ≠ [] → (∀ d ∈ ds, d.isDigit) → isWordChar c = false →
      Rew L s t →
      Rew L ('#' :: ds ++ c :: s) (L ++ '#' :: ds ++ c :: t)

/-- Shape of the `prerelease` field of a parsed version: empty, or the
scanned text including its leading `-`. -/
def PreOK (x : List Char) : Prop := x = [] ∨ ∃ w, x = '-' :: w

/-! ### Concrete fixtures for the run-level claims -/

/-- Configuration used by the concrete run scenarios: explicit previous
tag, no configured submodule link label. -/
def cfgEx : Config := ⟨"tok", "owner/repo", "v1.1.0", "v1.0.0", ""⟩

/-- Tag-reference resolution that knows the two tags of `cfgEx`. -/
def tagRefEx : String → Except String String := fun t =>
  if t = "v1.1.0" then .ok "1111111111111111111111111111111111111111"
  else if t = "v1.0.0" then .ok "0000000000000000000000000000000000000000"
  else .error "Not Found"

/-- World where `.gitmodules` does not exist at the commit: the
`GetContents` call returns a 404 error. -/
def wNoManifest : World :=
  ⟨[], tagRefEx, [some "fix main"], .error "404 Not Found", .ok [], .ok [], []⟩

/-- World whose manifest declares a `url` but no `path`. -/
def wUrlOnly : World :=
  ⟨[], tagRefEx, [some "fix main"],
   .ok "url = https://github.com/org/ebpf.git", .ok [], .ok [], []⟩

/-- World whose manifest parses fully but whose pinned submodule commit
identifiers are shorter than 8 bytes. -/
def wShortSha : World :=
  ⟨[], tagRefEx, [some "fix main"],
   .ok "path = ebpf\nurl = https://github.com/org/ebpf.git",
   .ok [⟨"ebpf", "commit", "abc"⟩], .ok [⟨"ebpf", "commit", "def0"⟩],
   [some "fix sub #5"]⟩

/-- World whose manifest exists but declares nothing parseable. -/
def wEmptyManifest : World :=
  ⟨[], tagRefEx, [some "fix main"], .ok "", .ok [], .ok [], []⟩

/-! ## Lemmas: byte-order comparison `goStrCmp` -/

theorem goStrCmp_refl : ∀ a : List Char, goStrCmp a a = 0
  | [] => rfl
  | a :: xs => by simp [goStrCmp, lt_irrefl a, goStrCmp_refl xs]

theorem goStrCmp_eq_zero : ∀ {a b : List Char}, goStrCmp a b = 0 → a = b
  | [], [], _ => rfl
  | [], _ :: _, h => by simp [goStrCmp] at h
  | _ :: _, [], h => by simp [goStrCmp] at h
  | a :: xs, b :: ys, h => by
    by_cases h1 : a < b
    · simp [goStrCmp, h1] at h
    · by_cases h2 : b < a
      · simp [goStrCmp, h1, h2] at h
      · have hab : a = b := le_antisymm (not_lt.mp h2) (not_lt.mp h1)
        have hxs : xs = ys :=
          goStrCmp_eq_zero (a := xs) (b := ys) (by simpa [goStrCmp, h1, h2] using h)
        rw [hab, hxs]

theorem goStrCmp_antisymm : ∀ (a b : List Char), goStrCmp a b = -goStrCmp b a
  | [], [] => rfl
  | [], _ :: _ => rfl
  | _ :: _, [] => rfl
  | a :: xs, b :: ys => by
    by_cases h1 : a < b
    · simp [goStrCmp, h1, lt_asymm h1]
    · by_cases h2 : b < a
      · simp [goStrCmp, h1, h2, lt_asymm h2]
      · simp [goStrCmp, h1, h2, goStrCmp_antisymm xs ys]

theorem goStrCmp_trans_lt : ∀ {a b c : List Char},
    goStrCmp a b < 0 → goStrCmp b c < 0 → goStrCmp a c < 0
  | [], [], _, h1, _ => by simp [goStrCmp] at h1
  | [], _ :: _, [], _, h2 => by simp [goStrCmp] at h2
  | [], _ :: _, _ :: _, _, _ => by simp [goStrCmp]
  | _ :: _, [], _, h1, _ => by simp [goStrCmp] at h1
  | _ :: _, _ :: _, [], _, h2 => by simp [goStrCmp] at h2
  | a :: xs, b :: ys, c :: zs, h1, h2 => by
    by_cases hab : a < b
    · by_cases hbc : b < c
      · simp [goStrCmp, lt_trans hab hbc]
      · by_cases hcb : c < b
        · simp [goStrCmp, hbc, hcb] at h2
        · have hbc' : b = c := le_antisymm (not_lt.mp hcb) (not_lt.mp hbc)
          subst hbc'
          simp [goStrCmp, hab]
    · by_cases hba : b < a
      · simp [goStrCmp, hab, hba] at h1
      · have hab' : a = b := le_antisymm (not_lt.mp hba) (not_lt.mp hab)
        subst hab'
        have h1' : goStrCmp xs ys < 0 := by simpa [goStrCmp, hab] using h1
        by_cases hbc : a < c
        · simp [goStrCmp, hbc]
        · by_cases hcb : c < a
          · simp [goStrCmp, hbc, hcb] at h2
          · have hbc' : a = c := le_antisymm (not_lt.mp hcb) (not_lt.mp hbc)
            subst hbc'
            have h2' : goStrCmp ys zs < 0 := by simpa [goStrCmp, hbc] using h2
            simpa [goStrCmp, hbc] using goStrCmp_trans_lt h1' h2'

/-! ## Lemmas: `compareInt` (shortlex order) -/

theorem compareInt_eq_zero {x y : List Char} : compareInt x y = 0 ↔ x = y := by
  unfold compareInt
  by_cases hxy : x = y
  · simp [hxy]
  · simp only [hxy, if_false, iff_false]
    split_ifs <;> simp

theorem compareInt_lt_iff {x y : List Char} :
    compareInt x y < 0 ↔
      x.length < y.length ∨ (x.length = y.length ∧ goStrCmp x y < 0) := by
  unfold compareInt
  by_cases hxy : x = y
  · subst hxy; simp [goStrCmp_refl]
  · simp only [hxy, if_false]
    by_cases h1 : x.length < y.length
    · simp [h1]
    · simp only [h1, if_false, false_or]
      by_cases h2 : y.length < x.length
      · simp only [h2, if_true]
        constructor
        · intro h; omega
        · rintro ⟨he, _⟩; omega
      · have he : x.length = y.length := le_antisymm (not_lt.mp h2) (not_lt.mp h1)
        by_cases h3 : goStrCmp x y < 0
        · simp [h2, h3, he]
        · simp [h2, h3, he]

theorem compareInt_antisymm (x y : List Char) : compareInt x y = -compareInt y x := by
  unfold compareInt
  by_cases hxy : x = y
  · simp [hxy]
  · have hyx : y ≠ x := fun h => hxy h.symm
    simp only [hxy, hyx, if_false]
    by_cases h1 : x.length < y.length
    · simp [h1, asymm h1]
    · by_cases h2 : y.length < x.length
      · simp [h1, h2]
      · have hs : goStrCmp x y ≠ 0 := fun h => hxy (goStrCmp_eq_zero h)
        have ha := goStrCmp_antisymm x y
        simp only [h1, h2, if_false]
        by_cases h3 : goStrCmp x y < 0
        · have h4 : ¬ goStrCmp y x < 0 := by omega
          simp [h3, h4]
        · have h4 : goStrCmp y x < 0 := by omega
          simp [h3, h4]

theorem compareInt_trans_lt {x y z : List Char}
    (h1 : compareInt x y < 0) (h2 : compareInt y z < 0) : compareInt x z < 0 := by
  rw [compareInt_lt_iff] at h1 h2 ⊢
  rcases h1 with h1 | ⟨h1e, h1s⟩
  · rcases h2 with h2 | ⟨h2e, _⟩
    · exact Or.inl (lt_trans h1 h2)
    · exact Or.inl (by omega)
  · rcases h2 with h2 | ⟨h2e, h2s⟩
    · exact Or.inl (by omega)
    · exact Or.inr ⟨by omega, goStrCmp_trans_lt h1s h2s⟩

/-! ## Lemmas: the prerelease identifier order -/

theorem cmpIdent_num_eq_compareInt {a b : List Char} (hab : a ≠ b)
    (ha : isNum a = true) (hb : isNum b = true) : cmpIdent a b = compareInt a b := by
  unfold cmpIdent compareInt
  simp only [ha, hb, ne_eq, not_true_eq_false, if_false, hab, true_and, Bool.true_and,
    decide_eq_true_eq]

theorem cmpIdent_lex {a b : List Char} (ha : isNum a = false) (hb : isNum b = false) :
    cmpIdent a b = if goStrCmp a b < 0 then -1 else 1 := by
  unfold cmpIdent
  simp [ha, hb]

theorem cmpIdent_num_lt {a b : List Char} (ha : isNum a = true) (hb : isNum b = false) :
    cmpIdent a b = -1 := by
  unfold cmpIdent
  simp [ha, hb]

theorem cmpIdent_num_gt {a b : List Char} (ha : isNum a = false) (hb : isNum b = true) :
    cmpIdent a b = 1 := by
  unfold cmpIdent
  simp [ha, hb]

theorem cmpIdent_ne_zero (a b : List Char) : cmpIdent a b ≠ 0 := by
  unfold cmpIdent
  split_ifs <;> decide

theorem cmpIdent_antisymm : ∀ {a b : List Char}, a ≠ b → cmpIdent a b = -cmpIdent b a := by
  intro a b hab
  have hba : b ≠ a := fun h => hab h.symm
  cases ha : isNum a <;> cases hb : isNum b
  · have hs : goStrCmp a b ≠ 0 := fun h => hab (goStrCmp_eq_zero h)
    have hanti := goStrCmp_antisymm a b
    rw [cmpIdent_lex ha hb, cmpIdent_lex hb ha]
    by_cases h3 : goStrCmp a b < 0
    · have h4 : ¬ goStrCmp b a < 0 := by omega
      simp [h3, h4]
    · have h4 : goStrCmp b a < 0 := by omega
      simp [h3, h4]
  · rw [cmpIdent_num_gt ha hb, cmpIdent_num_lt hb ha]
    decide
  · rw [cmpIdent_num_lt ha hb, cmpIdent_num_gt hb ha]
  · rw [cmpIdent_num_eq_compareInt hab ha hb, cmpIdent_num_eq_compareInt hba hb ha]
    exact compareInt_antisymm a b

theorem cmpIdent_trans_lt : ∀ {a b c : List Char}, a ≠ b → b ≠ c →
    cmpIdent a b < 0 → cmpIdent b c < 0 → cmpIdent a c < 0 := by
  intro a b c hab hbc h1 h2
  by_cases hac : a = c
  · subst hac
    rw [cmpIdent_antisymm hab] at h1
    omega
  cases ha : isNum a <;> cases hb : isNum b <;> cases hc : isNum c
  · rw [cmpIdent_lex ha hb] at h1
    rw [cmpIdent_lex hb hc] at h2
    rw [cmpIdent_lex ha hc]
    have hs1 : goStrCmp a b < 0 := by by_cases h : goStrCmp a b < 0 <;> simp [h] at h1 ; omega
    have hs2 : goStrCmp b c < 0 := by by_cases h : goStrCmp b c < 0 <;> simp [h] at h2 ; omega
    simp [goStrCmp_trans_lt hs1 hs2]
  · rw [cmpIdent_num_gt hb hc] at h2
    omega
  · rw [cmpIdent_num_gt ha hb] at h1
    omega
  · rw [cmpIdent_num_gt ha hb] at h1
    omega
  · rw [cmpIdent_num_lt ha hc]
    omega
  · rw [cmpIdent_num_gt hb hc] at h2
    omega
  · rw [cmpIdent_num_lt ha hc]
    omega
  · rw [cmpIdent_num_eq_compareInt hab ha hb] at h1
    rw [cmpIdent_num_eq_compareInt hbc hb hc] at h2
    rw [cmpIdent_num_eq_compareInt hac ha hc]
    exact compareInt_trans_lt h1 h2

theorem cprIdents_ne_zero : ∀ (as bs : List (List Char)), cprIdents as bs ≠ 0
  | [], _ => by simp [cprIdents]
  | _ :: _, [] => by simp [cprIdents]
  | dx :: xs, dy :: ys => by
    by_cases h : dx = dy
    · simpa [cprIdents, h] using cprIdents_ne_zero xs ys
    · simpa [cprIdents, h] using cmpIdent_ne_zero dx dy

theorem cprIdents_antisymm : ∀ {as bs : List (List Char)}, as ≠ bs →
    cprIdents as bs = -cprIdents bs as
  | [], [], h => absurd rfl h
  | [], _ :: _, _ => rfl
  | _ :: _, [], _ => rfl
  | dx :: xs, dy :: ys, h => by
    by_cases hd : dx = dy
    · subst hd
      have hxy : xs ≠ ys := fun he => h (by rw [he])
      simpa [cprIdents] using cprIdents_antisymm hxy
    · have hd' : dy ≠ dx := fun he => hd he.symm
      simpa [cprIdents, hd, hd'] using cmpIdent_antisymm hd

theorem cprIdents_trans_lt : ∀ {as bs cs : List (List Char)},
    cprIdents as bs < 0 → cprIdents bs cs < 0 → cprIdents as cs < 0
  | [], _, _, _, _ => by simp [cprIdents]
  | _ :: _, [], _, h1, _ => by simp [cprIdents] at h1
  | _ :: _, _ :: _, [], _, h2 => by simp [cprIdents] at h2
  | dx :: xs, dy :: ys, dz :: zs, h1, h2 => by
    by_cases hxy : dx = dy
    · subst hxy
      have h1' : cprIdents xs ys < 0 := by simpa [cprIdents] using h1
      by_cases hyz : dx = dz
      · subst hyz
        have h2' : cprIdents ys zs < 0 := by simpa [cprIdents] using h2
        simpa [cprIdents] using cprIdents_trans_lt h1' h2'
      · have h2' : cmpIdent dx dz < 0 := by simpa [cprIdents, hyz] using h2
        simpa [cprIdents, hyz] using h2'
    · have h1' : cmpIdent dx dy < 0 := by simpa [cprIdents, hxy] using h1
      by_cases hyz : dy = dz
      · subst hyz
        simpa [cprIdents, hxy] using h1'
      · have h2' : cmpIdent dy dz < 0 := by simpa [cprIdents, hyz] using h2
        have hxz : dx ≠ dz := by
          intro he
          subst he
          rw [cmpIdent_antisymm hxy] at h1'
          omega
        simpa [cprIdents, hxz] using cmpIdent_trans_lt hxy hyz h1' h2'

/-! ## Lemmas: `splitCh` and `joinSep` -/

theorem splitCh_ne_nil (sep : Char) : ∀ l : List Char, splitCh sep l ≠ []
  | [] => by simp [splitCh]
  | c :: rest => by
    by_cases hc : c = sep
    · simp [splitCh, hc]
    · simp only [splitCh, hc, if_false]
      cases h : splitCh sep rest <;> simp

theorem joinSep_splitCh (sep : Char) : ∀ l : List Char, joinSep sep (splitCh sep l) = l
  | [] => rfl
  | c :: rest => by
    cases h : splitCh sep rest with
    | nil => exact absurd h (splitCh_ne_nil sep rest)
    | cons d ds =>
      have ih : joinSep sep (splitCh sep rest) = rest := joinSep_splitCh sep rest
      rw [h] at ih
      by_cases hc : c = sep
      · subst hc
        simp only [splitCh, if_pos rfl, h]
        simpa [joinSep] using ih
      · simp only [splitCh, hc, if_false, h]
        cases ds with
        | nil => simpa [joinSep] using congrArg (c :: ·) ih
        | cons d' ds' => simpa [joinSep] using congrArg (c :: ·) ih

theorem splitCh_inj {sep : Char} {l₁ l₂ : List Char}
    (h : splitCh sep l₁ = splitCh sep l₂) : l₁ = l₂ := by
  have h1 := joinSep_splitCh sep l₁
  have h2 := joinSep_splitCh sep l₂
  rw [← h1, ← h2, h]

/-! ## Lemmas: `comparePre` -/

theorem comparePre_refl (x : List Char) : comparePre x x = 0 := by simp [comparePre]

theorem comparePre_eq_zero {x y : List Char} (h : comparePre x y = 0) : x = y := by
  unfold comparePre at h
  by_cases hxy : x = y
  · exact hxy
  · simp only [hxy, if_false] at h
    by_cases hx : x = []
    · simp [hx] at h
    · by_cases hy : y = []
      · simp [hx, hy] at h
      · simp only [hx, hy, if_false] at h
        exact absurd h (cprIdents_ne_zero _ _)

theorem comparePre_antisymm {x y : List Char} (hx : PreOK x) (hy : PreOK y) :
    comparePre x y = -comparePre y x := by
  by_cases hxy : x = y
  · subst hxy
    simp [comparePre_refl]
  have hyx : y ≠ x := fun h => hxy h.symm
  rcases hx with hx | ⟨xw, hx⟩
  · subst hx
    have hy' : y ≠ [] := fun h => hyx h
    simp [comparePre, hxy, hyx, hy']
  · rcases hy with hy | ⟨yw, hy⟩
    · subst hy
      have hx' : x ≠ [] := fun h => hxy h
      simp [comparePre, hxy, hyx, hx']
    · have hx' : x ≠ [] := by simp [hx]
      have hy' : y ≠ [] := by simp [hy]
      have hsp : splitCh '.' x.tail ≠ splitCh '.' y.tail := by
        intro he
        apply hxy
        have : x.tail = y.tail := splitCh_inj he
        rw [hx, hy] at this ⊢
        simpa using this
      simp only [comparePre, hxy, hyx, hx', hy', if_false]
      exact cprIdents_antisymm hsp

theorem comparePre_trans_lt {x y z : List Char} (hx : PreOK x) (hy : PreOK y)
    (h1 : comparePre x y < 0) (h2 : comparePre y z < 0) : comparePre x z < 0 := by
  have hxy : x ≠ y := fun he => by simp [he, comparePre_refl] at h1
  have hyz : y ≠ z := fun he => by simp [he, comparePre_refl] at h2
  have hxne : x ≠ [] := by
    intro he
    subst he
    by_cases hy0 : y = []
    · exact hxy hy0.symm
    · simp [comparePre, hxy, hy0] at h1
  have hyne : y ≠ [] := by
    intro he
    subst he
    by_cases hz0 : z = []
    · exact hyz hz0.symm
    · simp [comparePre, hyz, hz0] at h2
  have h1' : cprIdents (splitCh '.' x.tail) (splitCh '.' y.tail) < 0 := by
    simpa [comparePre, hxy, hxne, hyne] using h1
  by_cases hzne : z = []
  · subst hzne
    simp [comparePre, hxne]
  · have h2' : cprIdents (splitCh '.' y.tail) (splitCh '.' z.tail) < 0 := by
      simpa [comparePre, hyz, hyne, hzne] using h2
    have htr := cprIdents_trans_lt h1' h2'
    have hxz : x ≠ z := by
      intro he
      subst he
      have hsp : splitCh '.' x.tail ≠ splitCh '.' y.tail := by
        intro hq
        apply hxy
        rcases hx with hx0 | ⟨xw, hxw⟩
        · exact absurd hx0 hxne
        rcases hy with hy0 | ⟨yw, hyw⟩
        · exact absurd hy0 hyne
        have ht : x.tail = y.tail := splitCh_inj hq
        rw [hxw, hyw] at ht ⊢
        simpa using ht
      have hsp' : splitCh '.' y.tail ≠ splitCh '.' x.tail := fun hq => hsp hq.symm
      rw [cprIdents_antisymm hsp'] at h2'
      omega
    simp only [comparePre, hxz, hxne, hzne, if_false]
    exact htr

/-! ## Lemmas: shape of parsed versions -/

theorem parsePre_shape {v t r : List Char} (h : parsePre v = some (t, r)) :
    ∃ w, t = '-' :: w := by
  unfold parsePre at h
  match v with
  | [] => exact absurd h (by simp)
  | '-' :: w =>
    simp only at h
    split at h
    · exact ⟨_, (Prod.mk.injEq _ _ _ _ ▸ Option.some.injEq _ _ ▸ h).1.symm⟩
    · exact absurd h (by simp)
  | c :: w =>
    by_cases hc : c = '-'
    · subst hc
      simp only at h
      split at h
      · exact ⟨_, (Prod.mk.injEq _ _ _ _ ▸ Option.some.injEq _ _ ▸ h).1.symm⟩
      · exact absurd h (by simp)
    · rw [show (match c :: w with
          | '-' :: w => _ | _ => none : Option (List Char × List Char)) = none from by
        simp [hc]] at h
      exact absurd h (by simp)

theorem parseSemver_preOK {v : List Char} {p : Parsed} (h : parseSemver v = some p) :
    PreOK p.prerelease := by
  unfold parseSemver at h
  split at h
  case _ w =>
    split at h
    · exact absurd h (by simp)
    case _ maj r1 =>
      split at h
      · cases h
        exact Or.inl rfl
      case _ r2 =>
        split at h
        · exact absurd h (by simp)
        case _ min r3 =>
          split at h
          · cases h
            exact Or.inl rfl
          case _ r4 =>
            split at h
            · exact absurd h (by simp)
            case _ pat r5 =>
              simp only at h
              split at h
              · exact absurd h (by simp)
              case _ pre r6 hpre =>
                split at h
                · exact absurd h (by simp)
                case _ bld r7 hbld =>
                  split at h
                  · cases h
                    simp only
                    revert hpre
                    split
                    · intro hp
                      rcases parsePre_shape hp with ⟨w', hw'⟩
                      exact Or.inr ⟨w', hw'⟩
                    · intro hp
                      cases hp
                      exact Or.inl rfl
                  · exact absurd h (by simp)
          · exact absurd h (by simp)
      · exact absurd h (by simp)
  · exact absurd h (by simp)

/-! ## Lemmas: the `Compare` cascade -/

theorem chainC_eq_zero {k₁ k₂ : Int} : chainC k₁ k₂ = 0 ↔ k₁ = 0 ∧ k₂ = 0 := by
  unfold chainC
  split_ifs <;> omega

theorem chainC_lt {k₁ k₂ : Int} : chainC k₁ k₂ < 0 ↔ k₁ < 0 ∨ (k₁ = 0 ∧ k₂ < 0) := by
  unfold chainC
  split_ifs <;> omega

theorem chainC_neg {k₁ k₂ j₁ j₂ : Int} (h1 : k₁ = -j₁) (h2 : k₂ = -j₂) :
    chainC k₁ k₂ = -chainC j₁ j₂ := by
  unfold chainC
  split_ifs <;> omega

theorem compareInt_refl (x : List Char) : compareInt x x = 0 := compareInt_eq_zero.mpr rfl

theorem parsedCmp_refl (p : Parsed) : parsedCmp p p = 0 := by
  unfold parsedCmp
  rw [compareInt_refl, compareInt_refl, compareInt_refl, comparePre_refl]
  rfl

theorem parsedCmp_antisymm {p q : Parsed} (hp : PreOK p.prerelease)
    (hq : PreOK q.prerelease) : parsedCmp p q = -parsedCmp q p :=
  chainC_neg (compareInt_antisymm _ _)
    (chainC_neg (compareInt_antisymm _ _)
      (chainC_neg (compareInt_antisymm _ _) (comparePre_antisymm hp hq)))

theorem parsedCmp_trans_lt {p q r : Parsed} (hp : PreOK p.prerelease)
    (hq : PreOK q.prerelease)
    (h1 : parsedCmp p q < 0) (h2 : parsedCmp q r < 0) : parsedCmp p r < 0 := by
  unfold parsedCmp at h1 h2 ⊢
  rw [chainC_lt, chainC_lt, chainC_lt] at h1 h2 ⊢
  rcases h1 with h1 | ⟨e1, h1⟩
  · rcases h2 with h2 | ⟨e2, _⟩
    · exact Or.inl (compareInt_trans_lt h1 h2)
    · rw [compareInt_eq_zero] at e2
      rw [e2] at h1
      exact Or.inl h1
  · rw [compareInt_eq_zero] at e1
    rcases h2 with h2 | ⟨e2, h2⟩
    · rw [← e1] at h2
      exact Or.inl h2
    · rw [compareInt_eq_zero] at e2
      refine Or.inr ⟨compareInt_eq_zero.mpr (e1.trans e2), ?_⟩
      rcases h1 with h1 | ⟨f1, h1⟩
      · rcases h2 with h2 | ⟨f2, _⟩
        · exact Or.inl (compareInt_trans_lt h1 h2)
        · rw [compareInt_eq_zero] at f2
          rw [f2] at h1
          exact Or.inl h1
      · rw [compareInt_eq_zero] at f1
        rcases h2 with h2 | ⟨f2, h2⟩
        · rw [← f1] at h2
          exact Or.inl h2
        · rw [compareInt_eq_zero] at f2
          refine Or.inr ⟨compareInt_eq_zero.mpr (f1.trans f2), ?_⟩
          rcases h1 with h1 | ⟨g1, h1⟩
          · rcases h2 with h2 | ⟨g2, _⟩
            · exact Or.inl (compareInt_trans_lt h1 h2)
            · rw [compareInt_eq_zero] at g2
              rw [g2] at h1
              exact Or.inl h1
          · rw [compareInt_eq_zero] at g1
            rcases h2 with h2 | ⟨g2, h2⟩
            · rw [← g1] at h2
              exact Or.inl h2
            · rw [compareInt_eq_zero] at g2
              exact Or.inr ⟨compareInt_eq_zero.mpr (g1.trans g2),
                comparePre_trans_lt hp hq h1 h2⟩

theorem parsedCmp_eq_fields {p q : Parsed} (h : parsedCmp p q = 0) :
    p.major = q.major ∧ p.minor = q.minor ∧ p.patch = q.patch ∧
      p.prerelease = q.prerelease := by
  unfold parsedCmp at h
  rw [chainC_eq_zero, chainC_eq_zero, chainC_eq_zero] at h
  obtain ⟨h1, h2, h3, h4⟩ := h
  exact ⟨compareInt_eq_zero.mp h1, compareInt_eq_zero.mp h2,
    compareInt_eq_zero.mp h3, comparePre_eq_zero h4⟩

theorem parsedCmp_congr_right {p q r : Parsed} (h : parsedCmp q r = 0) :
    parsedCmp p q = parsedCmp p r := by
  obtain ⟨h1, h2, h3, h4⟩ := parsedCmp_eq_fields h
  unfold parsedCmp
  rw [h1, h2, h3, h4]

theorem parsedCmp_congr_left {p q r : Parsed} (h : parsedCmp p q = 0) :
    parsedCmp p r = parsedCmp q r := by
  obtain ⟨h1, h2, h3, h4⟩ := parsedCmp_eq_fields h
  unfold parsedCmp
  rw [h1, h2, h3, h4]

/-! ## Lemmas: `semver.Compare` -/

theorem semverCompare_nn {a b : String} (ha : parseSemver a.data = none)
    (hb : parseSemver b.data = none) : semverCompare a b = 0 := by
  unfold semverCompare
  rw [ha, hb]

theorem semverCompare_ns {a b : String} {q : Parsed} (ha : parseSemver a.data = none)
    (hb : parseSemver b.data = some q) : semverCompare a b = -1 := by
  unfold semverCompare
  rw [ha, hb]

theorem semverCompare_sn {a b : String} {p : Parsed} (ha : parseSemver a.data = some p)
    (hb : parseSemver b.data = none) : semverCompare a b = 1 := by
  unfold semverCompare
  rw [ha, hb]

theorem semverCompare_ss {a b : String} {p q : Parsed} (ha : parseSemver a.data = some p)
    (hb : parseSemver b.data = some q) : semverCompare a b = parsedCmp p q := by
  unfold semverCompare
  rw [ha, hb]

theorem semverCompare_refl (v : String) : semverCompare v v = 0 := by
  cases h : parseSemver v.data
  · rw [semverCompare_nn h h]
  · rw [semverCompare_ss h h]
    exact parsedCmp_refl _

theorem semverCompare_antisymm (a b : String) :
    semverCompare a b = -semverCompare b a := by
  cases ha : parseSemver a.data <;> cases hb : parseSemver b.data
  · rw [semverCompare_nn ha hb, semverCompare_nn hb ha]
    decide
  · rw [semverCompare_ns ha hb, semverCompare_sn hb ha]
  · rw [semverCompare_sn ha hb, semverCompare_ns hb ha]
    decide
  · rw [semverCompare_ss ha hb, semverCompare_ss hb ha]
    exact parsedCmp_antisymm (parseSemver_preOK ha) (parseSemver_preOK hb)

theorem semverCompare_trans_lt {a b c : String}
    (h1 : semverCompare a b < 0) (h2 : semverCompare b c < 0) :
    semverCompare a c < 0 := by
  cases ha : parseSemver a.data <;> cases hb : parseSemver b.data <;>
    cases hc : parseSemver c.data
  · rw [semverCompare_nn ha hb] at h1
    omega
  · rw [semverCompare_nn ha hb] at h1
    omega
  · rw [semverCompare_sn hb hc] at h2
    omega
  · rw [semverCompare_ns ha hc]
    omega
  · rw [semverCompare_sn ha hb] at h1
    omega
  · rw [semverCompare_sn ha hb] at h1
    omega
  · rw [semverCompare_sn hb hc] at h2
    omega
  · rw [semverCompare_ss ha hb] at h1
    rw [semverCompare_ss hb hc] at h2
    rw [semverCompare_ss ha hc]
    exact parsedCmp_trans_lt (parseSemver_preOK ha) (parseSemver_preOK hb) h1 h2

theorem semverCompare_trans_eq {a b c : String}
    (h1 : semverCompare a b = 0) (h2 : semverCompare b c = 0) :
    semverCompare a c = 0 := by
  cases ha : parseSemver a.data <;> cases hb : parseSemver b.data <;>
    cases hc : parseSemver c.data
  · rw [semverCompare_nn ha hc]
  · rw [semverCompare_ns hb hc] at h2
    omega
  · rw [semverCompare_ns ha hb] at h1
    omega
  · rw [semverCompare_ns ha hb] at h1
    omega
  · rw [semverCompare_sn ha hb] at h1
    omega
  · rw [semverCompare_sn ha hb] at h1
    omega
  · rw [semverCompare_sn hb hc] at h2
    omega
  · rw [semverCompare_ss ha hb] at h1
    rw [semverCompare_ss hb hc] at h2
    rw [semverCompare_ss ha hc, parsedCmp_congr_left h1]
    exact h2

theorem semverCompare_lt_of_lt_of_eq {a b c : String}
    (h1 : semverCompare a b < 0) (h2 : semverCompare b c = 0) :
    semverCompare a c < 0 := by
  cases ha : parseSemver a.data <;> cases hb : parseSemver b.data <;>
    cases hc : parseSemver c.data
  · rw [semverCompare_nn ha hb] at h1
    omega
  · rw [semverCompare_nn ha hb] at h1
    omega
  · rw [semverCompare_sn hb hc] at h2
    omega
  · rw [semverCompare_ns ha hc]
    omega
  · rw [semverCompare_sn ha hb] at h1
    omega
  · rw [semverCompare_sn ha hb] at h1
    omega
  · rw [semverCompare_sn hb hc] at h2
    omega
  · rw [semverCompare_ss ha hb] at h1
    rw [semverCompare_ss hb hc] at h2
    rw [semverCompare_ss ha hc, ← parsedCmp_congr_right h2]
    exact h1

theorem semverCompare_lt_of_eq_of_lt {a b c : String}
    (h1 : semverCompare a b = 0) (h2 : semverCompare b c < 0) :
    semverCompare a c < 0 := by
  cases ha : parseSemver a.data <;> cases hb : parseSemver b.data <;>
    cases hc : parseSemver c.data
  · rw [semverCompare_nn hb hc] at h2
    omega
  · rw [semverCompare_ns ha hc]
    omega
  · rw [semverCompare_ns ha hb] at h1
    omega
  · rw [semverCompare_ns ha hb] at h1
    omega
  · rw [semverCompare_sn ha hb] at h1
    omega
  · rw [semverCompare_sn ha hb] at h1
    omega
  · rw [semverCompare_sn hb hc] at h2
    omega
  · rw [semverCompare_ss ha hb] at h1
    rw [semverCompare_ss hb hc] at h2
    rw [semverCompare_ss ha hc, parsedCmp_congr_left h1]
    exact h2

/-! ## Lemmas: the `ByVersion` sort order -/

theorem stringDataEq : ∀ {a b : String}, a.data = b.data → a = b := by
  intro a b h
  cases a
  cases b
  congr 1

theorem bvLess_asymm {a b : String} (h : bvLess a b) : ¬ bvLess b a := by
  unfold bvLess at h ⊢
  have hanti := semverCompare_antisymm a b
  have hgs := goStrCmp_antisymm a.data b.data
  rcases h with hc | ⟨hc, hs⟩ <;> rintro (hc' | ⟨hc', hs'⟩) <;> omega

theorem bvLE_eq_of_both {a b : String} (h1 : bvLE a b) (h2 : bvLE b a) : a = b := by
  unfold bvLE bvLess at h1 h2
  push_neg at h1 h2
  obtain ⟨hc1, hs1⟩ := h1
  obtain ⟨hc2, hs2⟩ := h2
  have hanti := semverCompare_antisymm a b
  have hgs := goStrCmp_antisymm a.data b.data
  have hgs1 : 0 ≤ goStrCmp b.data a.data := hs1 (by omega)
  have hgs2 : 0 ≤ goStrCmp a.data b.data := hs2 (by omega)
  exact stringDataEq (goStrCmp_eq_zero (by omega))

theorem bvLE_total (a b : String) : bvLE a b ∨ bvLE b a := by
  by_cases h : bvLess b a
  · exact Or.inr (bvLess_asymm h)
  · exact Or.inl h

theorem bvLE_trans {a b c : String} (h1 : bvLE a b) (h2 : bvLE b c) : bvLE a c := by
  unfold bvLE bvLess at h1 h2 ⊢
  push_neg at h1 h2 ⊢
  obtain ⟨hc1, hs1⟩ := h1
  obtain ⟨hc2, hs2⟩ := h2
  have hab := semverCompare_antisymm a b
  have hbc := semverCompare_antisymm b c
  constructor
  · by_contra hx
    push_neg at hx
    rcases lt_trichotomy (semverCompare a b) 0 with h | h | h
    · have : semverCompare c b < 0 := semverCompare_trans_lt hx h
      omega
    · have : semverCompare c b < 0 := semverCompare_lt_of_lt_of_eq hx h
      omega
    · omega
  · intro hca0
    rcases lt_trichotomy (semverCompare a b) 0 with h | h | h
    · have : semverCompare c b < 0 := semverCompare_lt_of_eq_of_lt hca0 h
      omega
    · have hcb0 : semverCompare c b = 0 := semverCompare_trans_eq hca0 h
      have hgs1 : 0 ≤ goStrCmp b.data a.data := hs1 (by omega)
      have hgs2 : 0 ≤ goStrCmp c.data b.data := hs2 (by omega)
      have hab_le : goStrCmp a.data b.data ≤ 0 := by
        have := goStrCmp_antisymm a.data b.data
        omega
      have hbc_le : goStrCmp b.data c.data ≤ 0 := by
        have := goStrCmp_antisymm b.data c.data
        omega
      have hac_le : goStrCmp a.data c.data ≤ 0 := by
        rcases lt_or_eq_of_le hab_le with h1' | h1'
        · rcases lt_or_eq_of_le hbc_le with h2' | h2'
          · exact le_of_lt (goStrCmp_trans_lt h1' h2')
          · have he : b.data = c.data := goStrCmp_eq_zero h2' 
            rw [← he]
            exact le_of_lt h1'
        · have he : a.data = b.data := goStrCmp_eq_zero h1' 
          rw [he]
          exact hbc_le
      have := goStrCmp_antisymm a.data c.data
      omega
    · omega

instance : IsTotal String bvLE := ⟨bvLE_total⟩

instance : IsTrans String bvLE := ⟨fun _ _ _ => bvLE_trans⟩

instance : IsAntisymm String bvLE := ⟨fun _ _ => bvLE_eq_of_both⟩

theorem semverSortGo_perm (l : List String) : (semverSortGo l).Perm l :=
  List.perm_insertionSort bvLE l

theorem semverSortGo_sorted (l : List String) : List.Sorted bvLE (semverSortGo l) :=
  List.sorted_insertionSort bvLE l

theorem semverSortGo_eq_of_perm {l l' : List String} (h : l.Perm l') :
    semverSortGo l = semverSortGo l' :=
  List.eq_of_perm_of_sorted
    ((semverSortGo_perm l).trans (h.trans (semverSortGo_perm l').symm))
    (semverSortGo_sorted l) (semverSortGo_sorted l')

theorem semverSortGo_idem (l : List String) :
    semverSortGo (semverSortGo l) = semverSortGo l :=
  List.eq_of_perm_of_sorted (semverSortGo_perm (semverSortGo l))
    (semverSortGo_sorted (semverSortGo l)) (semverSortGo_sorted l)

theorem bvLE_cmp_le {a b : String} (h : bvLE a b) : semverCompare a b ≤ 0 := by
  unfold bvLE bvLess at h
  push_neg at h
  obtain ⟨hc, _⟩ := h
  have := semverCompare_antisymm a b
  omega

/-- `splitCh` performs the same segmentation as the left-to-right scan that
takes everything up to the next separator, skips the separator, and
repeats (the shape of Go's `nextIdent` loop and of `strings.Split`). -/
theorem splitCh_eq_scan (sep : Char) : ∀ l : List Char,
    splitCh sep l = l.takeWhile (· ≠ sep) ::
      (match l.dropWhile (· ≠ sep) with
       | [] => []
       | _ :: r => splitCh sep r)
  | [] => rfl
  | c :: rest => by
    by_cases hc : c = sep
    · subst hc
      simp [splitCh, List.takeWhile_cons, List.dropWhile_cons]
    · have ih := splitCh_eq_scan sep rest
      simp only [splitCh, hc, if_false, List.takeWhile_cons, List.dropWhile_cons]
      rw [ih]
      simp [hc]

/-! ## Lemmas: `fetchPreviousTag` -/

theorem collectTags_map_some {tags : List String}
    (hclean : ∀ t ∈ tags, t ≠ "" ∧ strContains t '-' = false) :
    collectTags (tags.map some) = tags := by
  unfold collectTags
  rw [List.filterMap_map]
  have : (id ∘ some : String → Option String) = some := rfl
  rw [this, List.filterMap_some, List.filter_eq_self.mpr]
  intro t ht
  rcases hclean t ht with ⟨h1, h2⟩
  simp [h1, h2]

theorem collectTags_no_hyphen (releases : List (Option String)) :
    ∀ t ∈ collectTags releases, t ≠ "" ∧ strContains t '-' = false := by
  intro t ht
  unfold collectTags at ht
  rw [List.mem_filter] at ht
  rcases ht with ⟨_, hcond⟩
  rw [Bool.and_eq_true] at hcond
  rcases hcond with ⟨h1, h2⟩
  refine ⟨by simpa using h1, by simpa using h2⟩

theorem scanDown_mem (target fb : String) : ∀ rl : List String,
    scanDown target fb rl = fb ∨ scanDown target fb rl ∈ rl
  | [] => Or.inl rfl
  | t :: rest => by
    unfold scanDown
    by_cases hcond : semverCompare target t ≤ 0
    · rcases scanDown_mem target fb rest with h | h
      · exact Or.inl (by simp [hcond, h])
      · exact Or.inr (by simp [hcond, h])
    · exact Or.inr (by simp [hcond])

theorem scanDown_spec (target fb : String) : ∀ rl : List String,
    rl.Pairwise (fun a b => semverCompare b a ≤ 0) →
    ((∀ t ∈ rl, ¬ semverCompare t target < 0) → scanDown target fb rl = fb) ∧
    ((∃ t ∈ rl, semverCompare t target < 0) →
      scanDown target fb rl ∈ rl ∧
      semverCompare (scanDown target fb rl) target < 0 ∧
      ∀ x ∈ rl, semverCompare x target < 0 →
        semverCompare x (scanDown target fb rl) ≤ 0)
  | [], _ => by
    refine ⟨fun _ => rfl, ?_⟩
    rintro ⟨t, ht, _⟩
    exact absurd ht (List.not_mem_nil t)
  | t :: rest, hp => by
    have hrel : ∀ x ∈ rest, semverCompare x t ≤ 0 :=
      fun x hx => List.rel_of_pairwise_cons hp hx
    have ih := scanDown_spec target fb rest (List.Pairwise.of_cons hp)
    by_cases hcond : semverCompare target t ≤ 0
    · have hnotlt : ¬ semverCompare t target < 0 := by
        have := semverCompare_antisymm t target
        omega
      simp only [scanDown, hcond, if_true]
      constructor
      · intro hall
        exact ih.1 (fun x hx => hall x (List.mem_cons_of_mem t hx))
      · rintro ⟨x, hx, hxlt⟩
        rcases List.mem_cons.mp hx with hx' | hx'
        · rw [hx'] at hxlt
          exact absurd hxlt hnotlt
        · obtain ⟨hmem, hlt, hmax⟩ := ih.2 ⟨x, hx', hxlt⟩
          refine ⟨List.mem_cons_of_mem t hmem, hlt, ?_⟩
          intro y hy hylt
          rcases List.mem_cons.mp hy with hy' | hy'
          · rw [hy'] at hylt
            exact absurd hylt hnotlt
          · exact hmax y hy' hylt
    · have htlt : semverCompare t target < 0 := by
        have := semverCompare_antisymm t target
        omega
      simp only [scanDown, hcond, if_false]
      constructor
      · intro hall
        exact absurd htlt (hall t (List.mem_cons_self t rest))
      · intro _
        refine ⟨List.mem_cons_self t rest, htlt, ?_⟩
        intro y hy _
        rcases List.mem_cons.mp hy with hy' | hy'
        · rw [hy', semverCompare_refl]
        · exact hrel y hy'

theorem pairwise_last_max {s : List String} (hne : s ≠ [])
    (hp : s.Pairwise (fun a b => semverCompare a b ≤ 0)) :
    ∀ x ∈ s, semverCompare x (s.getLast hne) ≤ 0 := by
  intro x hx
  by_cases hxl : x = s.getLast hne
  · rw [hxl, semverCompare_refl]
  · have hsplit := List.dropLast_append_getLast hne
    have hx' : x ∈ s.dropLast ++ [s.getLast hne] := by rw [hsplit]; exact hx
    have hp' : (s.dropLast ++ [s.getLast hne]).Pairwise
        (fun a b => semverCompare a b ≤ 0) := by rw [hsplit]; exact hp
    rw [List.pairwise_append] at hp'
    rcases List.mem_append.mp hx' with hx'' | hx''
    · exact hp'.2.2 x hx'' (s.getLast hne) (List.mem_singleton.mpr rfl)
    · exact absurd (List.mem_singleton.mp hx'') hxl

theorem fetchPreviousTag_spec (tags : List String) (target : String)
    (hne : tags ≠ []) (htarget : target ≠ "")
    (hclean : ∀ t ∈ tags, t ≠ "" ∧ strContains t '-' = false) :
    fetchPreviousTag "" target (tags.map some) ∈ tags ∧
    ((∃ t ∈ tags, semverCompare t target < 0) →
      semverCompare (fetchPreviousTag "" target (tags.map some)) target < 0 ∧
      ∀ x ∈ tags, semverCompare x target < 0 →
        semverCompare x (fetchPreviousTag "" target (tags.map some)) ≤ 0) ∧
    ((∀ t ∈ tags, ¬ semverCompare t target < 0) →
      ∀ x ∈ tags, semverCompare x (fetchPreviousTag "" target (tags.map some)) ≤ 0) := by
  have hsne : semverSortGo tags ≠ [] := by
    intro h
    exact hne (List.Perm.eq_nil ((semverSortGo_perm tags).symm.trans (h ▸ List.Perm.refl _)))
  have hperm := semverSortGo_perm tags
  have hsorted : (semverSortGo tags).Pairwise (fun a b => semverCompare a b ≤ 0) :=
    (semverSortGo_sorted tags).imp (fun h => bvLE_cmp_le h)
  have hrev : (semverSortGo tags).reverse.Pairwise (fun a b => semverCompare b a ≤ 0) :=
    List.pairwise_reverse.mpr hsorted
  have hunfold : fetchPreviousTag "" target (tags.map some) =
      scanDown target ((semverSortGo tags).getLast hsne) (semverSortGo tags).reverse := by
    unfold fetchPreviousTag
    rw [if_neg (by simp), collectTags_map_some hclean]
    simp only [List.getLast?_eq_getLast _ hsne, htarget, if_false]
  obtain ⟨hfall, hex⟩ := scanDown_spec target ((semverSortGo tags).getLast hsne)
    (semverSortGo tags).reverse hrev
  constructor
  · rw [hunfold]
    rcases scanDown_mem target ((semverSortGo tags).getLast hsne)
        (semverSortGo tags).reverse with h | h
    · rw [h]
      exact hperm.mem_iff.mp (List.getLast_mem hsne)
    · exact hperm.mem_iff.mp (List.mem_reverse.mp h)
  constructor
  · rintro ⟨t, ht, htlt⟩
    have htrev : t ∈ (semverSortGo tags).reverse :=
      List.mem_reverse.mpr (hperm.mem_iff.mpr ht)
    obtain ⟨hmem, hlt, hmax⟩ := hex ⟨t, htrev, htlt⟩
    rw [hunfold]
    refine ⟨hlt, ?_⟩
    intro x hx hxlt
    exact hmax x (List.mem_reverse.mpr (hperm.mem_iff.mpr hx)) hxlt
  · intro hall
    have hall' : ∀ t ∈ (semverSortGo tags).reverse, ¬ semverCompare t target < 0 :=
      fun t ht => hall t (hperm.mem_iff.mp (List.mem_reverse.mp ht))
    rw [hunfold, hfall hall']
    intro x hx
    exact pairwise_last_max hsne hsorted x (hperm.mem_iff.mpr hx)

theorem getLast?_mem_self {s : List String} {a : String} (h : s.getLast? = some a) :
    a ∈ s := by
  obtain ⟨hne', heq⟩ := List.mem_getLast?_eq_getLast (l := s) (x := a)
    (by rw [Option.mem_def, h])
  rw [heq]
  exact List.getLast_mem hne'

/-! ## Claim theorems -/

/-- **C1**: for every non-empty catalog of non-prerelease tag names sorted
ascending by semantic version and every non-empty target tag,
`fetchPreviousTag` selects as previous tag a catalog entry that is strictly
less than the target under semantic-version comparison and greatest among
all such entries; if no catalog entry is strictly less than the target, it
selects a greatest tag of the catalog (a defined fallback, not an error).
In particular, target `"v2.0.0"` over `{"v1.0.0","v1.1.0","v2.0.0"}`
yields `"v1.1.0"`, and target `"v1.0.0"` over `{"v1.0.0"}` yields
`"v1.0.0"` itself. -/
theorem C1_fetchPreviousTag_selects_previous (tags : List String) (target : String)
    (hne : tags ≠ []) (htarget : target ≠ "")
    (hclean : ∀ t ∈ tags, t ≠ "" ∧ strContains t '-' = false)
    (_hsorted : tags.Pairwise (fun a b => semverCompare a b ≤ 0)) :
    (fetchPreviousTag "" target (tags.map some) ∈ tags ∧
     ((∃ t ∈ tags, semverCompare t target < 0) →
       semverCompare (fetchPreviousTag "" target (tags.map some)) target < 0 ∧
       ∀ x ∈ tags, semverCompare x target < 0 →
         semverCompare x (fetchPreviousTag "" target (tags.map some)) ≤ 0) ∧
     ((∀ t ∈ tags, ¬ semverCompare t target < 0) →
       ∀ x ∈ tags, semverCompare x (fetchPreviousTag "" target (tags.map some)) ≤ 0)) ∧
    fetchPreviousTag "" "v2.0.0" (["v1.0.0", "v1.1.0", "v2.0.0"].map some) = "v1.1.0" ∧
    fetchPreviousTag "" "v1.0.0" (["v1.0.0"].map some) = "v1.0.0" := by
  refine ⟨fetchPreviousTag_spec tags target hne htarget hclean, by decide, by decide⟩

theorem C1_fetchPreviousTag_selects_previous_witness :
    fetchPreviousTag "" "v2.0.0" (["v1.0.0", "v1.1.0", "v2.0.0"].map some) ∈
      ["v1.0.0", "v1.1.0", "v2.0.0"] ∧
    fetchPreviousTag "" "v2.0.0" (["v1.0.0", "v1.1.0", "v2.0.0"].map some) = "v1.1.0" ∧
    fetchPreviousTag "" "v1.0.0" (["v1.0.0"].map some) = "v1.0.0" :=
  ⟨(C1_fetchPreviousTag_selects_previous ["v1.0.0", "v1.1.0", "v2.0.0"] "v2.0.0"
      (by decide) (by decide) (by decide) (by decide)).1.1,
   (C1_fetchPreviousTag_selects_previous ["v1.0.0", "v1.1.0", "v2.0.0"] "v2.0.0"
      (by decide) (by decide) (by decide) (by decide)).2⟩

/-- **C6**: when no explicit previous tag is configured, every release tag
name containing a hyphen is discarded before sorting and selection —
the sorted candidate list contains no hyphenated name and the selected
previous tag never contains a hyphen; in particular, given tags
`{"v1.0.0","v1.1.0-rc1"}`, only `"v1.0.0"` survives the filter and
participates in the ordering decision. -/
theorem C6_prerelease_tags_never_previous :
    (∀ (cfgTag : String) (releases : List (Option String)),
      (∀ t ∈ semverSortGo (collectTags releases), strContains t '-' = false) ∧
      strContains (fetchPreviousTag "" cfgTag releases) '-' = false) ∧
    collectTags [some "v1.0.0", some "v1.1.0-rc1"] = ["v1.0.0"] := by
  refine ⟨?_, by decide⟩
  intro cfgTag releases
  have hs : ∀ t ∈ semverSortGo (collectTags releases), strContains t '-' = false := by
    intro t ht
    exact (collectTags_no_hyphen releases t
      ((semverSortGo_perm (collectTags releases)).mem_iff.mp ht)).2
  refine ⟨hs, ?_⟩
  unfold fetchPreviousTag
  rw [if_neg (by simp)]
  cases h : (semverSortGo (collectTags releases)).getLast? with
  | none =>
    simp only [h]
    decide
  | some lastTag =>
    have hlast : lastTag ∈ semverSortGo (collectTags releases) := getLast?_mem_self h
    simp only [h]
    by_cases hct : cfgTag = ""
    · simp only [hct, if_true]
      exact hs lastTag hlast
    · simp only [hct, if_false]
      rcases scanDown_mem cfgTag lastTag (semverSortGo (collectTags releases)).reverse
        with hsc | hsc
      · rw [hsc]
        exact hs lastTag hlast
      · exact hs _ (List.mem_reverse.mp hsc)

theorem C6_prerelease_tags_never_previous_witness :
    strContains (fetchPreviousTag "" "v2.0.0" [some "v1.0.0", some "v1.1.0-rc1"]) '-'
      = false ∧
    collectTags [some "v1.0.0", some "v1.1.0-rc1"] = ["v1.0.0"] :=
  ⟨(C6_prerelease_tags_never_previous.1 "v2.0.0" [some "v1.0.0", some "v1.1.0-rc1"]).2,
   C6_prerelease_tags_never_previous.2⟩

/-- **C7**: for every tag set with no prerelease-marked entries, sorting by
semantic version and then selecting the greatest (last) element is
idempotent — applying the sort again changes nothing — and the result is
independent of the input list's original order: any permutation of the
same tag multiset yields the same sorted list and the same selected
greatest tag. -/
theorem C7_sort_select_idempotent_order_independent (l : List String)
    (_hnopre : ∀ t ∈ l, strContains t '-' = false) :
    semverSortGo (semverSortGo l) = semverSortGo l ∧
    ∀ l' : List String, l.Perm l' →
      semverSortGo l = semverSortGo l' ∧
      (semverSortGo l).getLast? = (semverSortGo l').getLast? := by
  refine ⟨semverSortGo_idem l, ?_⟩
  intro l' hperm
  have he := semverSortGo_eq_of_perm hperm
  exact ⟨he, by rw [he]⟩

/-! ## Lemmas: manifest parsing (`getSubmodulePathRepo`) -/

theorem getD_last_two {parts : List (List Char)} {lastSeg prevSeg : List Char}
    {others : List (List Char)} (h : parts.reverse = lastSeg :: prevSeg :: others) :
    parts.getD (parts.length - 2) [] = prevSeg ∧
    parts.getD (parts.length - 1) [] = lastSeg := by
  have hparts : parts = others.reverse ++ [prevSeg, lastSeg] := by
    have h2 := congrArg List.reverse h
    rw [List.reverse_reverse] at h2
    rw [h2]
    simp
  subst hparts
  constructor
  · rw [List.getD_append_right _ _ _ _
      (by simp only [List.length_append, List.length_reverse, List.length_cons,
        List.length_nil]; omega)]
    rw [show (others.reverse ++ [prevSeg, lastSeg]).length - 2 - others.reverse.length = 0
      from by simp only [List.length_append, List.length_reverse, List.length_cons,
        List.length_nil]; omega]
    rfl
  · rw [List.getD_append_right _ _ _ _
      (by simp only [List.length_append, List.length_reverse, List.length_cons,
        List.length_nil]; omega)]
    rw [show (others.reverse ++ [prevSeg, lastSeg]).length - 1 - others.reverse.length = 1
      from by simp only [List.length_append, List.length_reverse, List.length_cons,
        List.length_nil]; omega]
    rfl

theorem hasPre_append (p rest : List Char) : hasPre p (p ++ rest) = true := by
  unfold hasPre
  rw [List.take_left]
  simp

/-! ## Lemmas: `getChanges` -/

theorem firstSeg_newline (s : String) :
    (match splitCh '\n' s.data with
     | [] => ""
     | l :: _ => String.mk l) = String.mk (s.data.takeWhile (· ≠ '\n')) := by
  rw [splitCh_eq_scan '\n' s.data]

theorem getChanges_foldl_eq : ∀ (cs : List (Option String)) (acc : List String),
    cs.foldl
      (fun changes msg? =>
        match msg? with
        | some msg =>
          changes ++ ["* " ++ (match splitCh '\n' msg.data with
                               | [] => ""
                               | l :: _ => String.mk l)]
        | none => changes)
      acc
    = acc ++ cs.filterMap
        (fun msg? => msg?.map
          (fun msg => "* " ++ String.mk (msg.data.takeWhile (· ≠ '\n'))))
  | [], acc => by simp
  | some msg :: rest, acc => by
    rw [List.foldl_cons, getChanges_foldl_eq rest]
    simp only [List.filterMap_cons, Option.map_some]
    rw [firstSeg_newline msg]
    simp
  | none :: rest, acc => by
    rw [List.foldl_cons, getChanges_foldl_eq rest]
    simp [List.filterMap_cons]

theorem length_filterMap_map_isSome (f : String → String) :
    ∀ cs : List (Option String),
      (cs.filterMap (fun m => m.map f)).length =
        (cs.filter (fun m => m.isSome)).length
  | [] => rfl
  | some _ :: rest => by
    simp [List.filterMap_cons, List.filter_cons,
      length_filterMap_map_isSome f rest]
  | none :: rest => by
    simp [List.filterMap_cons, List.filter_cons,
      length_filterMap_map_isSome f rest]

/-! ## Lemmas: the cross-reference rewriter -/

theorem stringMk_data : ∀ s : String, String.mk s.data = s := fun ⟨_⟩ => rfl

theorem isWordChar_of_isDigit {c : Char} (h : c.isDigit = true) : isWordChar c = true := by
  unfold isWordChar
  have h' : ('0' ≤ c && c ≤ '9') = true := h
  rw [h']
  rfl

theorem isDigit_false_of_nonword {c : Char} (h : isWordChar c = false) :
    c.isDigit = false := by
  cases hd : c.isDigit
  · rfl
  · rw [isWordChar_of_isDigit hd] at h
    exact absurd h (by simp)

theorem dropWhile_head_false {α : Type} {p : α → Bool} :
    ∀ {l : List α} {c : α} {r : List α}, l.dropWhile p = c :: r → p c = false
  | [], _, _, h => by simp [List.dropWhile] at h
  | a :: l, c, r, h => by
    by_cases hp : p a = true
    · rw [List.dropWhile_cons_of_pos hp] at h
      exact dropWhile_head_false h
    · rw [List.dropWhile_cons_of_neg hp] at h
      cases h
      exact Bool.not_eq_true _ ▸ (by simpa using hp)

theorem annotRefs_fst_cons (c : Char) (t : List Char) :
    (annotRefs (c :: t)).1 =
      (c, match t with
          | [] => false
          | d :: _ => d.isDigit && (annotRefs t).2) :: (annotRefs t).1 := by
  rcases hat : annotRefs t with ⟨a, p⟩
  simp [annotRefs, hat]

theorem annotRefs_fst_cons₂ (c d : Char) (t' : List Char) :
    (annotRefs (c :: d :: t')).1 =
      (c, d.isDigit && (annotRefs (d :: t')).2) :: (annotRefs (d :: t')).1 :=
  annotRefs_fst_cons c (d :: t')

theorem annotRefs_snd_cons (c : Char) (t : List Char) :
    (annotRefs (c :: t)).2 = if c.isDigit then (annotRefs t).2 else !isWordChar c := by
  rcases hat : annotRefs t with ⟨a, p⟩
  simp [annotRefs, hat]

theorem emitRefs_true_digit (L : List Char) {c : Char} (h : c.isDigit = true)
    (mb : Bool) (rest : List (Char × Bool)) :
    emitRefs L true ((c, mb) :: rest) = c :: emitRefs L true rest := by
  simp only [emitRefs]
  rw [if_pos h]

theorem emitRefs_true_exit (L : List Char) {c : Char} (h : c.isDigit = false)
    (mb : Bool) (rest : List (Char × Bool)) :
    emitRefs L true ((c, mb) :: rest) = c :: emitRefs L false rest := by
  simp only [emitRefs]
  rw [if_neg (by simp [h])]

theorem emitRefs_false_hash (L : List Char) (rest : List (Char × Bool)) :
    emitRefs L false (('#', true) :: rest) = L ++ '#' :: emitRefs L true rest := rfl

theorem emitRefs_false_skip (L : List Char) {c : Char} {mb : Bool}
    (h : (decide (c = '#') && mb) = false) (rest : List (Char × Bool)) :
    emitRefs L false ((c, mb) :: rest) = c :: emitRefs L false rest := by
  simp only [emitRefs]
  rw [if_neg (by simp [h])]

theorem annot_P_digits : ∀ {ds : List Char}, (∀ d ∈ ds, d.isDigit = true) →
    ∀ rest : List Char, (annotRefs (ds ++ rest)).2 = (annotRefs rest).2
  | [], _, _ => rfl
  | d :: ds, h, rest => by
    rw [List.cons_append, annotRefs_snd_cons, if_pos (h d (List.mem_cons_self d ds))]
    exact annot_P_digits (fun x hx => h x (List.mem_cons_of_mem d hx)) rest

theorem matchAt_P {t : List Char} (h : MatchAt ('#' :: t)) :
    (∃ d t', t = d :: t' ∧ d.isDigit = true) ∧ (annotRefs t).2 = true := by
  obtain ⟨ds, rest, hu, hne, hdig, hrest⟩ := h
  have ht : t = ds ++ rest := by injection hu
  constructor
  · cases ds with
    | nil => exact absurd rfl hne
    | cons d ds' =>
      exact ⟨d, ds' ++ rest, by simp [ht], hdig d (List.mem_cons_self d ds')⟩
  · rw [ht, annot_P_digits hdig rest]
    rcases hrest with hrest | ⟨c, rest', hrest, hcw⟩
    · rw [hrest]
      rfl
    · rw [hrest, annotRefs_snd_cons, if_neg (by simp [isDigit_false_of_nonword hcw]), hcw]
      rfl

theorem P_matchAt {t : List Char} (hd : ∃ d t', t = d :: t' ∧ d.isDigit = true)
    (hp : (annotRefs t).2 = true) : MatchAt ('#' :: t) := by
  obtain ⟨d, t', ht, hdig⟩ := hd
  refine ⟨t.takeWhile (fun c => c.isDigit), t.dropWhile (fun c => c.isDigit),
    by rw [List.cons_append, List.takeWhile_append_dropWhile], ?_, ?_, ?_⟩
  · rw [ht, List.takeWhile_cons_of_pos hdig]
    simp
  · intro x hx
    simpa using List.mem_takeWhile_imp hx
  · have hPdrop : (annotRefs (t.dropWhile (fun c => c.isDigit))).2 = true := by
      have hsame := @annot_P_digits (t.takeWhile (fun c => c.isDigit))
        (fun x hx => by simpa using List.mem_takeWhile_imp hx)
        (t.dropWhile (fun c => c.isDigit))
      rw [List.takeWhile_append_dropWhile] at hsame
      rw [← hsame]
      exact hp
    cases hdrop : t.dropWhile (fun c => c.isDigit) with
    | nil => exact Or.inl rfl
    | cons c r' =>
      have hcd : c.isDigit = false := by simpa using dropWhile_head_false hdrop
      rw [hdrop, annotRefs_snd_cons, if_neg (by simp [hcd])] at hPdrop
      refine Or.inr ⟨c, r', rfl, ?_⟩
      cases hw : isWordChar c
      · rfl
      · rw [hw] at hPdrop
        exact absurd hPdrop (by simp)

theorem emit_annot_digits (L : List Char) : ∀ (ds : List Char)
    (_h : ∀ d ∈ ds, d.isDigit = true) (rest : List Char),
    emitRefs L true ((annotRefs (ds ++ rest)).1) =
      ds ++ emitRefs L true ((annotRefs rest).1)
  | [], _, _ => rfl
  | d :: ds, h, rest => by
    rw [List.cons_append, annotRefs_fst_cons,
      emitRefs_true_digit L (h d (List.mem_cons_self d ds)) _ _,
      emit_annot_digits L ds (fun x hx => h x (List.mem_cons_of_mem d hx)) rest]
    rfl

theorem emit_annot_terminator (L : List Char) {c : Char} (hc : c.isDigit = false)
    (r : List Char) :
    emitRefs L true ((annotRefs (c :: r)).1) = c :: emitRefs L false ((annotRefs r).1) := by
  rw [annotRefs_fst_cons]
  exact emitRefs_true_exit L hc _ _

theorem rew_sound (L : List Char) : ∀ (n : Nat) (s : List Char), s.length ≤ n →
    Rew L s (emitRefs L false ((annotRefs s).1))
  | _, [], _ => Rew.nil
  | 0, _ :: _, h => by simp at h
  | n + 1, c :: t, h => by
    have ht : t.length ≤ n := by
      simp only [List.length_cons] at h
      omega
    by_cases hm : MatchAt (c :: t)
    · have hc : c = '#' := by
        obtain ⟨ds, rest, hu, _, _, _⟩ := hm
        injection hu with h1 _
      subst hc
      obtain ⟨⟨d, t', htd, hdig⟩, hP⟩ := matchAt_P hm
      subst htd
      obtain ⟨ds, rest, hu, hne, hdigs, hrest⟩ := hm
      have ht2 : d :: t' = ds ++ rest := by injection hu
      rw [annotRefs_fst_cons₂, hdig, Bool.true_and, hP, emitRefs_false_hash, ht2,
        emit_annot_digits L ds hdigs rest]
      rcases hrest with hrest | ⟨cr, rest', hrest, hcw⟩
      · subst hrest
        have hout := Rew.refEnd (L := L) hne hdigs
        simpa [emitRefs] using hout
      · subst hrest
        rw [emit_annot_terminator L (isDigit_false_of_nonword hcw) rest']
        have hrlen : rest'.length ≤ n := by
          have hlt := congrArg List.length ht2
          simp only [List.length_cons, List.length_append] at hlt ht
          omega
        have hout := Rew.refMid (L := L) hne hdigs hcw (rew_sound L n rest' hrlen)
        simpa using hout
    · cases t with
      | nil =>
        rw [annotRefs_fst_cons, emitRefs_false_skip L (by simp) _]
        exact Rew.plain hm Rew.nil
      | cons d t' =>
        have hmb : (decide (c = '#') && (d.isDigit && (annotRefs (d :: t')).2)) = false := by
          by_cases hc : c = '#'
          · subst hc
            rw [show (decide (('#' : Char) = '#')) = true from rfl, Bool.true_and]
            cases hd : d.isDigit with
            | false => simp
            | true =>
              cases hP : (annotRefs (d :: t')).2 with
              | false => simp
              | true => exact absurd (P_matchAt ⟨d, t', rfl, hd⟩ hP) hm
          · simp [hc]
        rw [annotRefs_fst_cons₂, emitRefs_false_skip L hmb _]
        exact Rew.plain hm (rew_sound L n (d :: t') ht)

theorem digits_run_eq : ∀ {ds₁ ds₂ : List Char} {c₁ c₂ : Char} {s₁ s₂ : List Char},
    (∀ d ∈ ds₁, d.isDigit = true) → (∀ d ∈ ds₂, d.isDigit = true) →
    c₁.isDigit = false → c₂.isDigit = false →
    ds₁ ++ c₁ :: s₁ = ds₂ ++ c₂ :: s₂ →
    ds₁ = ds₂ ∧ c₁ = c₂ ∧ s₁ = s₂
  | [], [], _, _, _, _, _, _, _, _, heq => by
    injection heq with h1 h2
    exact ⟨rfl, h1, h2⟩
  | [], d₂ :: ds₂', _, _, _, _, _, h2, hc1, _, heq => by
    injection heq with hh _
    rw [hh] at hc1
    rw [h2 d₂ (List.mem_cons_self d₂ ds₂')] at hc1
    exact absurd hc1 (by simp)
  | d₁ :: ds₁', [], _, _, _, _, h1, _, _, hc2, heq => by
    injection heq with hh _
    rw [← hh] at hc2
    rw [h1 d₁ (List.mem_cons_self d₁ ds₁')] at hc2
    exact absurd hc2 (by simp)
  | d₁ :: ds₁', d₂ :: ds₂', _, _, _, _, h1, h2, hc1, hc2, heq => by
    injection heq with hh htail
    obtain ⟨he1, he2, he3⟩ := digits_run_eq
      (fun x hx => h1 x (List.mem_cons_of_mem d₁ hx))
      (fun x hx => h2 x (List.mem_cons_of_mem d₂ hx)) hc1 hc2 htail
    exact ⟨by rw [hh, he1], he2, he3⟩

theorem digits_run_eq_end : ∀ {ds₁ ds₂ : List Char} {c₂ : Char} {s₂ : List Char},
    (∀ d ∈ ds₁, d.isDigit = true) → c₂.isDigit = false →
    ds₁ = ds₂ ++ c₂ :: s₂ → False
  | [], ds₂, _, _, _, _, heq => by
    cases ds₂ <;> simp at heq
  | d₁ :: ds₁', [], _, _, h1, hc2, heq => by
    injection heq with hh _
    rw [← hh] at hc2
    rw [h1 d₁ (List.mem_cons_self d₁ ds₁')] at hc2
    exact absurd hc2 (by simp)
  | d₁ :: ds₁', d₂ :: ds₂', _, _, h1, hc2, heq => by
    injection heq with _ htail
    exact digits_run_eq_end (fun x hx => h1 x (List.mem_cons_of_mem d₁ hx)) hc2 htail

/-- Inversion principle for the rewrite relation. -/
theorem rew_cases {L s t : List Char} (h : Rew L s t) :
    (s = [] ∧ t = []) ∨
    (∃ c s' t', s = c :: s' ∧ t = c :: t' ∧ ¬ MatchAt (c :: s') ∧ Rew L s' t') ∨
    (∃ ds, s = '#' :: ds ∧ t = L ++ '#' :: ds ∧ ds ≠ [] ∧ ∀ d ∈ ds, d.isDigit) ∨
    (∃ ds c s' t', s = '#' :: ds ++ c :: s' ∧ t = L ++ '#' :: ds ++ c :: t' ∧
      ds ≠ [] ∧ (∀ d ∈ ds, d.isDigit) ∧ isWordChar c = false ∧ Rew L s' t') := by
  cases h with
  | nil => exact Or.inl ⟨rfl, rfl⟩
  | plain hnm hr => exact Or.inr (Or.inl ⟨_, _, _, rfl, rfl, hnm, hr⟩)
  | refEnd hne hdig => exact Or.inr (Or.inr (Or.inl ⟨_, rfl, rfl, hne, hdig⟩))
  | refMid hne hdig hw hr =>
    exact Or.inr (Or.inr (Or.inr ⟨_, _, _, _, rfl, rfl, hne, hdig, hw, hr⟩))

theorem rew_unique (L : List Char) : ∀ (n : Nat) (s t₁ t₂ : List Char), s.length ≤ n →
    Rew L s t₁ → Rew L s t₂ → t₁ = t₂ := by
  intro n
  induction n with
  | zero =>
    intro s t₁ t₂ hlen h1 h2
    have hs : s = [] := List.eq_nil_of_length_eq_zero (Nat.le_zero.mp hlen)
    subst hs
    rcases rew_cases h1 with ⟨_, ht1⟩ | ⟨c, s', t', hs, _⟩ | ⟨ds, hs, _⟩ | ⟨ds, c, s', t', hs, _⟩
    · rcases rew_cases h2 with ⟨_, ht2⟩ | ⟨c, s', t', hs, _⟩ | ⟨ds, hs, _⟩ |
        ⟨ds, c, s', t', hs, _⟩
      · rw [ht1, ht2]
      · exact absurd hs (by simp)
      · exact absurd hs (by simp)
      · exact absurd hs (by simp)
    · exact absurd hs (by simp)
    · exact absurd hs (by simp)
    · exact absurd hs (by simp)
  | succ n ih =>
    intro s t₁ t₂ hlen h1 h2
    rcases rew_cases h1 with ⟨hs1, ht1⟩ | ⟨c, s', t₁', hs1, ht1, hnm, hr1⟩ |
      ⟨ds, hs1, ht1, hne, hdig⟩ | ⟨ds, c, s', t₁', hs1, ht1, hne, hdig, hw, hr1⟩ <;>
      rcases rew_cases h2 with ⟨hs2, ht2⟩ | ⟨c₂, s₂', t₂', hs2, ht2, hnm2, hr2⟩ |
        ⟨ds₂, hs2, ht2, hne2, hdig2⟩ | ⟨ds₂, c₂, s₂', t₂', hs2, ht2, hne2, hdig2, hw2, hr2⟩ <;>
      subst ht1 <;> subst ht2
    · rfl
    · exact absurd (hs1.symm.trans hs2) (by simp)
    · exact absurd (hs1.symm.trans hs2) (by simp)
    · exact absurd (hs1.symm.trans hs2) (by simp)
    · exact absurd (hs2.symm.trans hs1) (by simp)
    · -- plain vs plain
      have heq := hs1.symm.trans hs2
      injection heq with hc hs
      subst hc
      subst hs
      rw [hs1] at hlen
      simp only [List.length_cons] at hlen
      rw [ih s' t₁' t₂' (by omega) hr1 hr2]
    · -- plain vs refEnd
      have heq := hs1.symm.trans hs2
      injection heq with hc hs
      exact absurd (show MatchAt (c :: s') from by
        rw [hc, hs]
        exact ⟨ds₂, [], by simp, hne2, hdig2, Or.inl rfl⟩) hnm
    · -- plain vs refMid
      have heq := hs1.symm.trans hs2
      rw [List.cons_append] at heq
      injection heq with hc hs
      exact absurd (show MatchAt (c :: s') from by
        rw [hc, hs]
        exact ⟨ds₂, c₂ :: s₂', rfl, hne2, hdig2, Or.inr ⟨c₂, s₂', rfl, hw2⟩⟩) hnm
    · exact absurd (hs2.symm.trans hs1) (by simp)
    · -- refEnd vs plain
      have heq := hs1.symm.trans hs2
      injection heq with hc hs
      exact absurd (show MatchAt (c₂ :: s₂') from by
        rw [← hc, ← hs]
        exact ⟨ds, [], by simp, hne, hdig, Or.inl rfl⟩) hnm2
    · -- refEnd vs refEnd
      have heq := hs1.symm.trans hs2
      injection heq with _ hds
      rw [hds]
    · -- refEnd vs refMid
      have heq := hs1.symm.trans hs2
      rw [List.cons_append] at heq
      injection heq with _ hds
      exact absurd hds (fun hds => digits_run_eq_end hdig (isDigit_false_of_nonword hw2) hds)
    · exact absurd (hs2.symm.trans hs1) (by simp)
    · -- refMid vs plain
      have heq := hs1.symm.trans hs2
      rw [List.cons_append] at heq
      injection heq with hc hs
      exact absurd (show MatchAt (c₂ :: s₂') from by
        rw [← hc, ← hs]
        exact ⟨ds, c :: s', rfl, hne, hdig, Or.inr ⟨c, s', rfl, hw⟩⟩) hnm2
    · -- refMid vs refEnd
      have heq := hs1.symm.trans hs2
      rw [List.cons_append] at heq
      injection heq with _ hds
      exact absurd hds.symm
        (fun hds => digits_run_eq_end hdig2 (isDigit_false_of_nonword hw) hds)
    · -- refMid vs refMid
      have heq := hs1.symm.trans hs2
      rw [List.cons_append, List.cons_append] at heq
      injection heq with _ htail
      obtain ⟨he1, he2, he3⟩ := digits_run_eq hdig hdig2
        (isDigit_false_of_nonword hw) (isDigit_false_of_nonword hw2) htail
      subst he1
      subst he2
      subst he3
      rw [hs1] at hlen
      simp only [List.length_cons, List.length_append] at hlen
      rw [ih s' t₁' t₂' (by omega) hr1 hr2]

theorem emit_no_refs (L : List Char) : ∀ (s : List Char),
    (¬ ∃ u d v, s = u ++ '#' :: d :: v ∧ d.isDigit = true) →
    emitRefs L false ((annotRefs s).1) = s
  | [], _ => rfl
  | c :: t, hno => by
    have hrec := emit_no_refs L t (fun hocc =>
      hno (by
        obtain ⟨u, d, v, hsplit, hd⟩ := hocc
        exact ⟨c :: u, d, v, by rw [hsplit]; rfl, hd⟩))
    cases t with
    | nil =>
      rw [annotRefs_fst_cons, emitRefs_false_skip L (by simp) _, hrec]
    | cons d t' =>
      have hmb : (decide (c = '#') && (d.isDigit && (annotRefs (d :: t')).2)) = false := by
        by_cases hc : c = '#'
        · subst hc
          cases hd : d.isDigit with
          | false => simp [hd]
          | true => exact absurd ⟨[], d, t', rfl, hd⟩ hno
        · simp [hc]
      rw [annotRefs_fst_cons₂, emitRefs_false_skip L hmb _, hrec]

/-- **C4**: for every manifest content scanned line by line (lines trimmed
of whitespace): a line prefixed `path = ` sets the submodule path to the
remainder; a line prefixed `url = ` has a trailing `.git` suffix stripped,
then if the URL starts with an HTTP(S) scheme the repository identity is
the last two `/`-delimited segments, and if it starts with `git@` the
identity is the segment after the `:`.  In particular, parsing
`path = ebpf` then `url = https://github.com/org/ebpf.git` yields path
`"ebpf"` and repository `"org/ebpf"`, and parsing
`url = git@github.com:org/ebpf.git` yields repository `"org/ebpf"`. -/
theorem C4_gitmodules_line_parsing :
    gitmodulesScan "path = ebpf\nurl = https://github.com/org/ebpf.git"
      = ("ebpf", "org/ebpf") ∧
    gitmodulesScan "url = git@github.com:org/ebpf.git" = ("", "org/ebpf") ∧
    (∀ (st : String × String) (rawLine : String),
      (∀ rest, trimSp rawLine.data = "path = ".data ++ rest →
        (gitmodulesLineStep st rawLine).1 = String.mk rest) ∧
      (hasPre "path = ".data (trimSp rawLine.data) = false →
        (gitmodulesLineStep st rawLine).1 = st.1) ∧
      (hasPre "url = ".data (trimSp rawLine.data) = false →
        (gitmodulesLineStep st rawLine).2 = st.2) ∧
      (∀ rest url lastSeg prevSeg others,
        trimSp rawLine.data = "url = ".data ++ rest →
        url = stripDotGit (trimSp rest) →
        hasPre "http".data url = true →
        (splitCh '/' url).reverse = lastSeg :: prevSeg :: others →
        (gitmodulesLineStep st rawLine).2 = String.mk (prevSeg ++ '/' :: lastSeg)) ∧
      (∀ rest url host afterHost others,
        trimSp rawLine.data = "url = ".data ++ rest →
        url = stripDotGit (trimSp rest) →
        hasPre "http".data url = false →
        hasPre "git@".data url = true →
        splitCh ':' url = host :: afterHost :: others →
        (gitmodulesLineStep st rawLine).2 = String.mk afterHost)) := by
  refine ⟨by decide, by decide, ?_⟩
  intro st rawLine
  refine ⟨?_, ?_, ?_, ?_, ?_⟩
  · intro rest hrest
    show gitmodulesPathUpd st.1 (trimSp rawLine.data) = String.mk rest
    rw [hrest]
    rfl
  · intro hno
    show gitmodulesPathUpd st.1 (trimSp rawLine.data) = st.1
    unfold gitmodulesPathUpd
    simp [hno]
  · intro hno
    show gitmodulesUrlUpd st.2 (trimSp rawLine.data) = st.2
    unfold gitmodulesUrlUpd
    simp [hno]
  · intro rest url lastSeg prevSeg others hrest hurl hhttp hsplit
    obtain ⟨h2, h1⟩ := getD_last_two hsplit
    have hlen : 2 ≤ (splitCh '/' url).length := by
      have hc := congrArg List.length hsplit
      simp only [List.length_reverse, List.length_cons] at hc
      omega
    have hstep : (gitmodulesLineStep st rawLine).2 =
        gitmodulesRepoOfUrl st.2 (stripDotGit (trimSp rest)) := by
      show gitmodulesUrlUpd st.2 (trimSp rawLine.data) = _
      rw [hrest]
      rfl
    rw [hstep, ← hurl]
    unfold gitmodulesRepoOfUrl
    simp only [hhttp, if_true, hlen, if_pos hlen, h1, h2]
  · intro rest url host afterHost others hrest hurl hhttp hgit hsplit
    have hstep : (gitmodulesLineStep st rawLine).2 =
        gitmodulesRepoOfUrl st.2 (stripDotGit (trimSp rest)) := by
      show gitmodulesUrlUpd st.2 (trimSp rawLine.data) = _
      rw [hrest]
      rfl
    rw [hstep, ← hurl]
    unfold gitmodulesRepoOfUrl
    have hlen : 2 ≤ (splitCh ':' url).length := by
      rw [hsplit]
      simp only [List.length_cons]
      omega
    have hgetD : (splitCh ':' url).getD 1 [] = afterHost := by
      rw [hsplit]
      rfl
    simp only [hhttp, hgit, if_true, Bool.false_eq_true, if_false, hlen, if_pos hlen, hgetD]

theorem C4_gitmodules_line_parsing_witness :
    (gitmodulesLineStep ("", "") "url = git@github.com:org/ebpf.git").2 =
      String.mk "org/ebpf".data :=
  (C4_gitmodules_line_parsing.2.2 ("", "") "url = git@github.com:org/ebpf.git").2.2.2.2
    "git@github.com:org/ebpf.git".data "git@github.com:org/ebpf".data
    "git@github.com".data "org/ebpf".data [] (by decide) (by decide) (by decide)
    (by decide) (by decide)

theorem no_hash_no_ref {s : List Char} (h : ∀ c ∈ s, c ≠ '#') :
    ¬ ∃ u d v, s = u ++ '#' :: d :: v ∧ d.isDigit = true := by
  rintro ⟨u, d, v, hs, _⟩
  exact h '#' (by rw [hs]; simp) rfl

/-- **C3**: for every list of commit summaries and every non-empty display
label, `replaceSubmoduleLinks` rewrites, in place (entry by entry, keeping
the list length), every substring consisting of `#` followed by one or
more digits followed by end-of-string or a non-word character, by prefixing
the label before the `#`; all non-matching text is preserved byte for byte
and multiple references per line are handled.  The rewrite of each entry
is sound for, and is pinned down by, the left-to-right non-overlapping
rewrite relation `Rew` (which inserts the label before every such match
and copies everything else unchanged).  In particular, input
`"* fix bug #42 and #7."` with label `"org/ebpf"` yields
`"* fix bug org/ebpf#42 and org/ebpf#7."`, and a summary containing no
`#digits` pattern is unchanged. -/
theorem C3_rewriter_rewrites_references (label : String) (_hl : label ≠ "")
    (entries : List String) :
    ((replaceSubmoduleLinks label entries).length = entries.length ∧
     ∀ i : Nat, (replaceSubmoduleLinks label entries)[i]? =
       (entries[i]?).map (rewriteEntry label)) ∧
    (∀ s : String, Rew label.data s.data (rewriteEntry label s).data) ∧
    (∀ (s t₁ t₂ : List Char), Rew label.data s t₁ → Rew label.data s t₂ → t₁ = t₂) ∧
    (∀ s : String, (¬ ∃ u d v, s.data = u ++ '#' :: d :: v ∧ d.isDigit = true) →
      rewriteEntry label s = s) ∧
    rewriteEntry "org/ebpf" "* fix bug #42 and #7."
      = "* fix bug org/ebpf#42 and org/ebpf#7." := by
  refine ⟨⟨by simp [replaceSubmoduleLinks], ?_⟩, ?_, ?_, ?_, by decide⟩
  · intro i
    simp [replaceSubmoduleLinks]
  · intro s
    exact rew_sound label.data s.data.length s.data le_rfl
  · intro s t₁ t₂ h1 h2
    exact rew_unique label.data s.length s t₁ t₂ le_rfl h1 h2
  · intro s hno
    show String.mk (emitRefs label.data false ((annotRefs s.data).1)) = s
    rw [emit_no_refs label.data s.data hno, stringMk_data]

theorem C3_rewriter_rewrites_references_witness :
    rewriteEntry "org/ebpf" "* fix bug #42 and #7."
        = "* fix bug org/ebpf#42 and org/ebpf#7." ∧
    rewriteEntry "org/ebpf" "no references here" = "no references here" :=
  ⟨(C3_rewriter_rewrites_references "org/ebpf" (by decide) []).2.2.2.2,
   (C3_rewriter_rewrites_references "org/ebpf" (by decide) []).2.2.2.1
     "no references here" (no_hash_no_ref (by decide))⟩

/-- **C10**: for the input `"see #1#2"`, which contains two adjacent issue
references where the first is terminated by the `#` of the second, the
rewriter rewrites only the first reference, producing `"see " ++ label ++
"#1#2"`: the terminating non-word character (the second `#`) is consumed
as part of the match, so the immediately following reference is not
matched or rewritten. -/
theorem C10_adjacent_reference_consumed (label : String) :
    rewriteEntry label "see #1#2" = "see " ++ label ++ "#1#2" := rfl

/-- **C5**: for every commit-comparison result, `getChanges` returns the
ordered sequence of entries, one per commit in the comparison's order,
each equal to `"* "` concatenated with the first line (the text before the
first newline) of that commit's message; commits with no message are
silently skipped, contributing no entry and no error. -/
theorem C5_getChanges_first_lines (comparisonCommits : List (Option String)) :
    getChanges comparisonCommits =
      comparisonCommits.filterMap
        (fun msg? => msg?.map
          (fun msg => "* " ++ String.mk (msg.data.takeWhile (· ≠ '\n')))) ∧
    (getChanges comparisonCommits).length =
      (comparisonCommits.filter (fun m => m.isSome)).length := by
  have h : getChanges comparisonCommits =
      comparisonCommits.filterMap
        (fun msg? => msg?.map
          (fun msg => "* " ++ String.mk (msg.data.takeWhile (· ≠ '\n')))) := by
    unfold getChanges
    rw [getChanges_foldl_eq]
    simp
  refine ⟨h, ?_⟩
  rw [h]
  exact length_filterMap_map_isSome _ comparisonCommits

/-! ## Lemmas: the run pipeline -/

theorem run_manifest_error (cfg : Config) (w : World) (ownerL repoL : List Char)
    (c pc : String) (e : String)
    (hsplit : splitCh '/' cfg.Repository.data = [ownerL, repoL])
    (h1 : w.tagRef cfg.Tag = .ok c)
    (h2 : w.tagRef (fetchPreviousTag cfg.PreviousTag cfg.Tag w.releaseTagNames) = .ok pc)
    (hgm : w.gitmodules = .error e) :
    run cfg w = .err ("failed to get submodule path and repository: "
      ++ ("failed to read .gitmodules from repository: " ++ e)) := by
  unfold run
  rw [hsplit, h1, h2]
  unfold getChangesForSubmodule getSubmodulePathRepo
  rw [hgm]

theorem run_no_submodule (cfg : Config) (w : World) (ownerL repoL : List Char)
    (c pc : String) (content p r : String)
    (hsplit : splitCh '/' cfg.Repository.data = [ownerL, repoL])
    (h1 : w.tagRef cfg.Tag = .ok c)
    (h2 : w.tagRef (fetchPreviousTag cfg.PreviousTag cfg.Tag w.releaseTagNames) = .ok pc)
    (hgm : w.gitmodules = .ok content)
    (hscan : gitmodulesScan content = (p, r))
    (hempty : p = "" ∨ r = "") :
    run cfg w = .ok ("## Changes from " ++ String.mk ownerL ++ "/" ++ String.mk repoL
      ++ ":\n" ++ joinNL (getChanges w.compareMain) ++ "\n"
      ++ "\n## Changes from " ++ r ++ ":\n" ++ joinNL ([] : List String) ++ "\n") := by
  unfold run
  rw [hsplit, h1, h2]
  unfold getChangesForSubmodule getSubmodulePathRepo
  simp only [hgm]
  simp only [hscan]
  rw [if_pos hempty]
  rfl

theorem getSubmoduleCommits_ok_nonempty {ot nt : Except String (List TreeEntry)}
    {sp o n : String} (h : getSubmoduleCommits ot nt sp = .ok (o, n)) :
    o ≠ "" ∧ n ≠ "" := by
  rcases ot with e | oldEntries
  · rw [show getSubmoduleCommits (.error e) nt sp
        = .error ("failed to get old tree: " ++ e) from rfl] at h
    exact absurd h (by simp)
  · rcases nt with e | newEntries
    · rw [show getSubmoduleCommits (.ok oldEntries) (.error e) sp
          = .error ("failed to get new tree: " ++ e) from rfl] at h
      exact absurd h (by simp)
    · rw [show getSubmoduleCommits (.ok oldEntries) (.ok newEntries) sp
          = (if findGitlink oldEntries sp = "" ∨ findGitlink newEntries sp = ""
             then .error "submodule not found in one or both tags"
             else .ok (findGitlink oldEntries sp, findGitlink newEntries sp)) from rfl] at h
      by_cases hcond : findGitlink oldEntries sp = "" ∨ findGitlink newEntries sp = ""
      · rw [if_pos hcond] at h
        exact absurd h (by simp)
      · rw [if_neg hcond] at h
        push_neg at hcond
        injection h with h
        injection h with ho hn
        rw [ho, hn] at hcond
        exact hcond

/-- **C2** (counterexample): when the manifest file does not exist at the
given commit (the `GetContents` call returns a 404 error), the submodule
declaration lookup returns a wrapped error — not a both-empty pair with no
error — and the run aborts instead of continuing, refuting the claim that
manifest-not-found is non-fatal. -/
theorem C2_manifest_not_found_counterexample :
    getSubmodulePathRepo (Except.error "404 Not Found")
      = Except.error "failed to read .gitmodules from repository: 404 Not Found" ∧
    run cfgEx wNoManifest = Outcome.err
      "failed to get submodule path and repository: failed to read .gitmodules from repository: 404 Not Found" :=
  ⟨rfl, by decide⟩

/-- **C2** (amended): if the manifest fetch fails (the file does not exist
at the given commit), the submodule declaration lookup returns a wrapped
error and the whole run aborts — manifest-not-found is fatal.  The
both-empty non-fatal path instead applies when the manifest exists but
declares nothing parseable: then the lookup returns a both-empty pair and
no error, and the run continues, emitting the submodule section with an
empty name and empty body. -/
theorem C2_manifest_missing_fatal_unparseable_nonfatal :
    (∀ (cfg : Config) (w : World) (ownerL repoL : List Char) (c pc e : String),
      splitCh '/' cfg.Repository.data = [ownerL, repoL] →
      w.tagRef cfg.Tag = .ok c →
      w.tagRef (fetchPreviousTag cfg.PreviousTag cfg.Tag w.releaseTagNames) = .ok pc →
      w.gitmodules = .error e →
      run cfg w = .err ("failed to get submodule path and repository: "
        ++ ("failed to read .gitmodules from repository: " ++ e))) ∧
    (∀ content : String, gitmodulesScan content = ("", "") →
      getSubmodulePathRepo (.ok content) = .ok ("", "")) ∧
    (∀ (cfg : Config) (w : World) (ownerL repoL : List Char) (c pc content : String),
      splitCh '/' cfg.Repository.data = [ownerL, repoL] →
      w.tagRef cfg.Tag = .ok c →
      w.tagRef (fetchPreviousTag cfg.PreviousTag cfg.Tag w.releaseTagNames) = .ok pc →
      w.gitmodules = .ok content →
      gitmodulesScan content = ("", "") →
      run cfg w = .ok ("## Changes from " ++ String.mk ownerL ++ "/" ++ String.mk repoL
        ++ ":\n" ++ joinNL (getChanges w.compareMain) ++ "\n"
        ++ "\n## Changes from " ++ "" ++ ":\n" ++ joinNL ([] : List String) ++ "\n")) := by
  refine ⟨?_, ?_, ?_⟩
  · intro cfg w ownerL repoL c pc e hs h1 h2 hg
    exact run_manifest_error cfg w ownerL repoL c pc e hs h1 h2 hg
  · intro content hscan
    show Except.ok (gitmodulesScan content) = Except.ok (("", "") : String × String)
    rw [hscan]
  · intro cfg w ownerL repoL c pc content hs h1 h2 hg hscan
    exact run_no_submodule cfg w ownerL repoL c pc content "" "" hs h1 h2 hg hscan
      (Or.inl rfl)

theorem C2_manifest_missing_fatal_unparseable_nonfatal_witness :
    run cfgEx wNoManifest = .err ("failed to get submodule path and repository: "
      ++ ("failed to read .gitmodules from repository: " ++ "404 Not Found")) ∧
    getSubmodulePathRepo (.ok "") = .ok ("", "") ∧
    run cfgEx wEmptyManifest = .ok ("## Changes from " ++ String.mk "owner".data ++ "/"
      ++ String.mk "repo".data ++ ":\n" ++ joinNL (getChanges wEmptyManifest.compareMain)
      ++ "\n" ++ "\n## Changes from " ++ "" ++ ":\n" ++ joinNL ([] : List String) ++ "\n") :=
  ⟨C2_manifest_missing_fatal_unparseable_nonfatal.1 cfgEx wNoManifest "owner".data
      "repo".data _ _ "404 Not Found" (by decide) rfl rfl rfl,
   C2_manifest_missing_fatal_unparseable_nonfatal.2.1 "" rfl,
   C2_manifest_missing_fatal_unparseable_nonfatal.2.2 cfgEx wEmptyManifest "owner".data
      "repo".data _ _ "" (by decide) rfl rfl rfl rfl⟩

/-- **C8** (counterexample): a run whose manifest declares a url but no
path finds no usable submodule (empty path), yet the emitted submodule
section header carries the parsed, non-empty repository name
`org/ebpf` — not an empty repository name as the claim states. -/
theorem C8_section_header_counterexample :
    run cfgEx wUrlOnly
      = .ok "## Changes from owner/repo:\n* fix main\n\n## Changes from org/ebpf:\n\n" ∧
    ("## Changes from owner/repo:\n* fix main\n\n## Changes from org/ebpf:\n\n" : String)
      ≠ "## Changes from owner/repo:\n* fix main\n\n## Changes from :\n\n" :=
  ⟨by decide, by decide⟩

/-- **C8** (amended): for every run in which no submodule is found (empty
path or empty repository identity from the manifest lookup), the assembled
report still contains the submodule section: the final text is the host
section header plus newline-joined host changes, followed by a submodule
section header and an empty body — the section is emitted, not suppressed.
The header names whatever repository identity the lookup returned: empty
when no identity was parsed, but the parsed identity when the manifest had
a url and no path. -/
theorem C8_submodule_section_always_emitted :
    ∀ (cfg : Config) (w : World) (ownerL repoL : List Char) (c pc content p r : String),
      splitCh '/' cfg.Repository.data = [ownerL, repoL] →
      w.tagRef cfg.Tag = .ok c →
      w.tagRef (fetchPreviousTag cfg.PreviousTag cfg.Tag w.releaseTagNames) = .ok pc →
      w.gitmodules = .ok content →
      gitmodulesScan content = (p, r) →
      p = "" ∨ r = "" →
      run cfg w = .ok ("## Changes from " ++ String.mk ownerL ++ "/" ++ String.mk repoL
        ++ ":\n" ++ joinNL (getChanges w.compareMain) ++ "\n"
        ++ "\n## Changes from " ++ r ++ ":\n" ++ joinNL ([] : List String) ++ "\n") :=
  fun cfg w ownerL repoL c pc content p r hs h1 h2 hg hscan he =>
    run_no_submodule cfg w ownerL repoL c pc content p r hs h1 h2 hg hscan he

theorem C8_submodule_section_always_emitted_witness :
    run cfgEx wUrlOnly = .ok ("## Changes from " ++ String.mk "owner".data ++ "/"
      ++ String.mk "repo".data ++ ":\n" ++ joinNL (getChanges wUrlOnly.compareMain)
      ++ "\n" ++ "\n## Changes from " ++ "org/ebpf" ++ ":\n"
      ++ joinNL ([] : List String) ++ "\n") :=
  C8_submodule_section_always_emitted cfgEx wUrlOnly "owner".data "repo".data _ _
    "url = https://github.com/org/ebpf.git" "" "org/ebpf" (by decide) rfl rfl rfl
    (by decide) (Or.inl rfl)

/-- **C9**: whenever a submodule is found and its two pinned commit
identifiers are resolved, the run slices the first 8 characters of each
identifier for display; `getSubmoduleCommits` only guarantees the
identifiers are non-empty, so the slice is safe only when every gitlink
SHA in the tree has length at least 8 — for a successful resolution
returning identifiers of length 3 and 4, the run panics (models the Go
slice-out-of-range panic) instead of returning an error. -/
theorem C9_short_sha_slice_panics :
    (∀ (ot nt : Except String (List TreeEntry)) (sp o n : String),
      getSubmoduleCommits ot nt sp = .ok (o, n) → o ≠ "" ∧ n ≠ "") ∧
    getSubmoduleCommits (.ok [⟨"ebpf", "commit", "abc"⟩])
      (.ok [⟨"ebpf", "commit", "def0"⟩]) "ebpf" = .ok ("abc", "def0") ∧
    ("abc" : String).data.length < 8 ∧
    run cfgEx wShortSha = .panicked := by
  refine ⟨fun ot nt sp o n h => getSubmoduleCommits_ok_nonempty h, rfl, by decide,
    by decide⟩

theorem C9_short_sha_slice_panics_witness :
    ("abc" : String) ≠ "" ∧ ("def0" : String) ≠ "" ∧
    run cfgEx wShortSha = Outcome.panicked :=
  ⟨(C9_short_sha_slice_panics.1 (.ok [⟨"ebpf", "commit", "abc"⟩])
      (.ok [⟨"ebpf", "commit", "def0"⟩]) "ebpf" "abc" "def0" rfl).1,
   (C9_short_sha_slice_panics.1 (.ok [⟨"ebpf", "commit", "abc"⟩])
      (.ok [⟨"ebpf", "commit", "def0"⟩]) "ebpf" "abc" "def0" rfl).2,
   C9_short_sha_slice_panics.2.2.2⟩

theorem C7_sort_select_idempotent_order_independent_witness :
    semverSortGo (semverSortGo ["v1.1.0", "v1.0.0"]) = semverSortGo ["v1.1.0", "v1.0.0"] ∧
    semverSortGo ["v1.1.0", "v1.0.0"] = semverSortGo ["v1.0.0", "v1.1.0"] ∧
    (semverSortGo ["v1.1.0", "v1.0.0"]).getLast? =
      (semverSortGo ["v1.0.0", "v1.1.0"]).getLast? :=
  ⟨(C7_sort_select_idempotent_order_independent ["v1.1.0", "v1.0.0"] (by decide)).1,
   (C7_sort_select_idempotent_order_independent ["v1.1.0", "v1.0.0"] (by decide)).2
      ["v1.0.0", "v1.1.0"] (by decide)⟩

end LinkedReleaseNotes
